import Mathlib

/-!
Verification of a flat in-order ("left-packed") Merkle tree.

The program keeps a Merkle tree in one growable sequence of fixed-width hash
slots.  Navigation is computed from bit patterns of positions (perfect binary
tree in-order index algebra, with redirections for the incomplete right-hand
part), appends push two slots and recompute the ancestor path, and inclusion
proofs are built by depth-first search and checked by a fold.

Conventions of the embedding:
* bytes are `Nat`, byte strings are `List Nat`, the slot store is
  `List (List Nat)`;
* the digest strategy is a parameter `F : List Nat → List Nat` (stateless,
  deterministic, fixed output length), supplied through a `Ctx` record
  together with the width parameters `N` and `ND`;
* `usize` arithmetic is embedded as `Nat` arithmetic (all positions are
  vector indices, far below `2 ^ 64`, so no wrap-around is reachable);
  `x & !m` on `usize` clears the bits of `m` from `x` and is embedded as
  `x ^^^ (x &&& m)`, which is the same function on the value range in use;
* fallible operations return `Except MErr`, where `MErr.panicked` stands for
  a Rust panic (out-of-bounds index or slice, `copy_from_slice` length
  mismatch) and the other constructors stand for the `Err(...)` values the
  tree operations can return;
* the two loops that are not structurally recursive (the `while let` walk in
  `lpbt_set` and the recursion of `create_proof_route`) take an explicit
  fuel argument, with `MErr.fuelOut` marking exhaustion; the development
  proves the fuel passed by the callers is always sufficient, so `fuelOut`
  never escapes.
-/

namespace Merkle

/-- `x & !m` on `usize`: clears from `x` every bit set in `m`.  Since every
bit of `x &&& m` is a bit of `x`, this is the xor below. -/
def andNot (x m : Nat) : Nat := x ^^^ (x &&& m)

/-- `last_set_bit`: `n - ((n - 1) & n)`, the lowest set bit of `n`. -/
def last_set_bit (n : Nat) : Nat := n - ((n - 1) &&& n)

/-- `last_zero_bit`: `last_set_bit (n + 1)`, the lowest zero bit of `n`. -/
def last_zero_bit (n : Nat) : Nat := last_set_bit (n + 1)

/-- `pbt_parent`: `(last_zero_bit n | n) & !(last_zero_bit n << 1)`. -/
def pbt_parent (n : Nat) : Nat :=
  andNot (last_zero_bit n ||| n) (last_zero_bit n <<< 1)

/-- `pbt_left_child`: `n & !(last_zero_bit n >> 1)` for odd `n`, else none. -/
def pbt_left_child (n : Nat) : Option Nat :=
  if n &&& 1 = 1 then some (andNot n (last_zero_bit n >>> 1)) else none

/-- `pbt_right_child`: `(n | last_zero_bit n) & !(last_zero_bit n >> 1)` for
odd `n`, else none. -/
def pbt_right_child (n : Nat) : Option Nat :=
  if n &&& 1 = 1 then some (andNot (n ||| last_zero_bit n) (last_zero_bit n >>> 1))
  else none

/-- Fuel-driven helper for `next_power_of_two`; the fuel only has to dominate
the recursion depth, which `next_power_of_two` arranges. -/
def npt_go : Nat → Nat → Nat
  | 0, _ => 1
  | fuel + 1, n => if n ≤ 1 then 1 else 2 * npt_go fuel ((n + 1) / 2)

/-- Rust `usize::next_power_of_two`: the least power of two `≥ n`
(and `1` for `n ≤ 1`). -/
def next_power_of_two (n : Nat) : Nat := npt_go n n

/-- `lpbt_root`: `((size + 1).next_power_of_two() - 1) >> 1`. -/
def lpbt_root (size : Nat) : Nat := (next_power_of_two (size + 1) - 1) >>> 1

/-- `pbt_leftmost_leaf`: `n & (n + 1)`. -/
def pbt_leftmost_leaf (n : Nat) : Nat := n &&& (n + 1)

/-- `lpbt_parent`: none at the root, otherwise `pbt_parent` redirected to
`pbt_leftmost_leaf n - 1` when it falls outside the sequence. -/
def lpbt_parent (n size : Nat) : Option Nat :=
  if n = lpbt_root size then none
  else some (if pbt_parent n < size then pbt_parent n else pbt_leftmost_leaf n - 1)

/-- `lpbt_right_child`: `pbt_right_child` redirected to
`n + 1 + lpbt_root (size - n - 1)` when it falls outside the sequence. -/
def lpbt_right_child (n size : Nat) : Option Nat :=
  if n &&& 1 = 1 then
    match pbt_right_child n with
    | none => none
    | some r => some (if r < size then r else n + 1 + lpbt_root (size - n - 1))
  else none

example : pbt_parent 2 = 1 := by decide
example : pbt_parent 4 = 5 := by decide
example : pbt_parent 5 = 3 := by decide
example : pbt_left_child 3 = some 1 := by decide
example : pbt_right_child 3 = some 5 := by decide
example : lpbt_root 5 = 3 := by decide
example : lpbt_root 0 = 0 := by decide
example : lpbt_parent 4 5 = some 3 := by decide
example : lpbt_right_child 3 5 = some 4 := by decide

/-! ## Bit-level toolkit -/

theorem two_pow_succ (j : Nat) : (2 : Nat) ^ (j + 1) = 2 * 2 ^ j := by
  rw [← pow_succ']

theorem two_pow_pred (j : Nat) (hj : 1 ≤ j) : (2 : Nat) ^ j = 2 * 2 ^ (j - 1) := by
  conv_lhs => rw [show j = (j - 1) + 1 from by omega]
  rw [two_pow_succ]

theorem testBit_andNot (x m i : Nat) :
    (andNot x m).testBit i = (x.testBit i && !(m.testBit i)) := by
  unfold andNot
  rw [Nat.testBit_xor, Nat.testBit_land]
  cases x.testBit i <;> cases m.testBit i <;> rfl

theorem testBit_mul_pow_add (a b k i : Nat) (hb : b < 2 ^ k) :
    (a * 2 ^ k + b).testBit i =
      if i < k then b.testBit i else a.testBit (i - k) := by
  rcases Nat.lt_or_ge i k with h | h
  · rw [if_pos h, Nat.testBit_to_div_mod, Nat.testBit_to_div_mod]
    have h2 : (2 : Nat) ^ k = 2 ^ i * 2 ^ (k - i) := by
      rw [← pow_add]; congr 1; omega
    have h3 : a * 2 ^ k + b = b + 2 ^ i * (2 ^ (k - i) * a) := by rw [h2]; ring
    rw [h3, Nat.add_mul_div_left _ _ (Nat.two_pow_pos i)]
    have h4 : 2 ^ (k - i) * a = 2 * (2 ^ (k - i - 1) * a) := by
      have h5 : (2 : Nat) ^ (k - i) = 2 * 2 ^ (k - i - 1) := two_pow_pred _ (by omega)
      rw [h5]; ring
    rw [h4, Nat.add_mul_mod_self_left]
  · rw [if_neg (by omega), Nat.testBit_to_div_mod, Nat.testBit_to_div_mod]
    have h2 : (2 : Nat) ^ i = 2 ^ k * 2 ^ (i - k) := by
      rw [← pow_add]; congr 1; omega
    have h3 : (a * 2 ^ k + b) / 2 ^ i = a / 2 ^ (i - k) := by
      rw [h2, ← Nat.div_div_eq_div_mul]
      congr 1
      rw [Nat.add_comm, Nat.mul_comm, Nat.add_mul_div_left _ _ (Nat.two_pow_pos k),
        Nat.div_eq_of_lt hb, Nat.zero_add]
    rw [h3]

theorem testBit_mul_pow (a k i : Nat) :
    (a * 2 ^ k).testBit i = if i < k then false else a.testBit (i - k) := by
  have h := testBit_mul_pow_add a 0 k i (Nat.two_pow_pos k)
  rw [Nat.add_zero] at h
  rw [h]
  by_cases h1 : i < k
  · rw [if_pos h1, if_pos h1, Nat.zero_testBit]
  · rw [if_neg h1, if_neg h1]

/-- The canonical shape of a natural number whose low bits are `0` followed by
`j` ones: `cf m j = m·2^(j+1) + (2^j − 1)`.  Every natural number is of this
form with `j` its number of trailing one bits. -/
def cf (m j : Nat) : Nat := m * 2 ^ (j + 1) + (2 ^ j - 1)

theorem testBit_cf (m j i : Nat) :
    (cf m j).testBit i =
      if i < j then true else if i = j then false else m.testBit (i - (j + 1)) := by
  unfold cf
  have hb : 2 ^ j - 1 < 2 ^ (j + 1) := by
    have := Nat.two_pow_pos j; have := two_pow_succ j; omega
  rw [testBit_mul_pow_add _ _ _ _ hb]
  by_cases h1 : i < j
  · rw [if_pos (by omega), if_pos h1, Nat.testBit_two_pow_sub_one]
    simp [h1]
  · by_cases h2 : i = j
    · rw [if_pos (by omega), if_neg h1, if_pos h2, Nat.testBit_two_pow_sub_one]
      simp [h2]
    · rw [if_neg (by omega), if_neg h1, if_neg h2]

theorem cf_mod_two (m j : Nat) : cf m j % 2 = if j = 0 then 0 else 1 := by
  unfold cf
  have e0 : m * 2 ^ (j + 1) = 2 * (m * 2 ^ j) := by rw [two_pow_succ]; ring
  rcases Nat.eq_zero_or_pos j with h | h
  · subst h
    rw [if_pos rfl]
    rw [show ((2 : Nat) ^ (0 + 1)) = 2 from by norm_num, show ((2 : Nat) ^ 0) = 1 from by norm_num]
    omega
  · rw [if_neg (by omega)]
    have e2 : (2 : Nat) ^ j = 2 * 2 ^ (j - 1) := two_pow_pred j h
    have := Nat.two_pow_pos (j - 1)
    omega

theorem cf_odd (m j : Nat) (hj : 1 ≤ j) : cf m j % 2 = 1 := by
  rw [cf_mod_two, if_neg (by omega)]

theorem cf_and_one (m j : Nat) (hj : 1 ≤ j) : cf m j &&& 1 = 1 := by
  rw [Nat.and_one_is_mod, cf_odd m j hj]

theorem testBit_zero_two_mul (m : Nat) : (2 * m).testBit 0 = false := by
  rw [Nat.testBit_to_div_mod, pow_zero, Nat.div_one]
  exact decide_eq_false (by omega)

theorem testBit_zero_two_mul_add_one (m : Nat) : (2 * m + 1).testBit 0 = true := by
  rw [Nat.testBit_to_div_mod, pow_zero, Nat.div_one]
  exact decide_eq_true (by omega)

theorem pbt_leftmost_leaf_cf (m j : Nat) :
    pbt_leftmost_leaf (cf m j) = m * 2 ^ (j + 1) := by
  unfold pbt_leftmost_leaf
  have hsucc : cf m j + 1 = m * 2 ^ (j + 1) + 2 ^ j := by
    unfold cf; have := Nat.two_pow_pos j; omega
  apply Nat.eq_of_testBit_eq
  intro i
  rw [Nat.testBit_land, testBit_cf m j i, hsucc,
    testBit_mul_pow_add m (2 ^ j) (j + 1) i
      (by have := two_pow_succ j; have := Nat.two_pow_pos j; omega),
    testBit_mul_pow m (j + 1) i]
  by_cases h1 : i < j
  · rw [if_pos h1, if_pos (show i < j + 1 from by omega),
      if_pos (show i < j + 1 from by omega), Nat.testBit_two_pow,
      decide_eq_false (show ¬(j = i) from by omega)]
    rfl
  · by_cases h2 : i = j
    · rw [if_neg h1, if_pos h2, if_pos (show i < j + 1 from by omega),
        if_pos (show i < j + 1 from by omega)]
      rfl
    · rw [if_neg h1, if_neg h2, if_neg (show ¬(i < j + 1) from by omega),
        if_neg (show ¬(i < j + 1) from by omega), Bool.and_self]

theorem last_zero_bit_cf (m j : Nat) : last_zero_bit (cf m j) = 2 ^ j := by
  unfold last_zero_bit last_set_bit
  rw [Nat.add_sub_cancel]
  have hland : cf m j &&& (cf m j + 1) = pbt_leftmost_leaf (cf m j) := rfl
  rw [hland, pbt_leftmost_leaf_cf]
  unfold cf
  have := Nat.two_pow_pos j
  omega

theorem pbt_parent_cf (m j : Nat) : pbt_parent (cf m j) = cf (m / 2) (j + 1) := by
  unfold pbt_parent
  rw [last_zero_bit_cf]
  have hsh : 2 ^ j <<< 1 = 2 ^ (j + 1) := by
    rw [Nat.shiftLeft_eq, pow_one, two_pow_succ]; ring
  rw [hsh]
  apply Nat.eq_of_testBit_eq
  intro i
  rw [testBit_andNot, Nat.testBit_lor, Nat.testBit_two_pow, Nat.testBit_two_pow,
    testBit_cf m j i, testBit_cf (m / 2) (j + 1) i]
  by_cases h1 : i < j
  · rw [if_pos h1, if_pos (show i < j + 1 from by omega),
      decide_eq_false (show ¬(j = i) from by omega),
      decide_eq_false (show ¬(j + 1 = i) from by omega)]
    rfl
  · by_cases h2 : i = j
    · rw [if_neg h1, if_pos h2, if_pos (show i < j + 1 from by omega),
      decide_eq_true (show j = i from h2.symm),
      decide_eq_false (show ¬(j + 1 = i) from by omega)]
      rfl
    · by_cases h3 : i = j + 1
      · rw [if_neg h1, if_neg h2, if_neg (show ¬(i < j + 1) from by omega),
          if_pos h3, decide_eq_false (show ¬(j = i) from by omega),
          decide_eq_true (show j + 1 = i from h3.symm)]
        cases m.testBit (i - (j + 1)) <;> rfl
      · rw [if_neg h1, if_neg h2, if_neg (show ¬(i < j + 1) from by omega),
          if_neg h3, decide_eq_false (show ¬(j = i) from by omega),
          decide_eq_false (show ¬(j + 1 = i) from by omega),
          show i - (j + 1) = (i - (j + 1 + 1)) + 1 from by omega, Nat.testBit_succ]
        cases (m / 2).testBit (i - (j + 1 + 1)) <;> rfl

theorem pbt_left_child_cf (m j : Nat) (hj : 1 ≤ j) :
    pbt_left_child (cf m j) = some (cf (2 * m) (j - 1)) := by
  unfold pbt_left_child
  rw [if_pos (cf_and_one m j hj)]
  congr 1
  rw [last_zero_bit_cf]
  have hsh : 2 ^ j >>> 1 = 2 ^ (j - 1) := by
    rw [Nat.shiftRight_eq_div_pow, pow_one, two_pow_pred j hj]
    exact Nat.mul_div_cancel_left _ (by omega)
  rw [hsh]
  apply Nat.eq_of_testBit_eq
  intro i
  rw [testBit_andNot, Nat.testBit_two_pow, testBit_cf m j i, testBit_cf (2 * m) (j - 1) i]
  by_cases h1 : i < j - 1
  · rw [if_pos h1, if_pos (show i < j from by omega),
      decide_eq_false (show ¬(j - 1 = i) from by omega)]
    rfl
  · by_cases h2 : i = j - 1
    · rw [if_neg h1, if_pos h2, if_pos (show i < j from by omega),
        decide_eq_true (show j - 1 = i from h2.symm)]
      rfl
    · by_cases h3 : i = j
      · rw [if_neg h1, if_neg h2, if_neg (show ¬(i < j) from by omega), if_pos h3,
          show i - (j - 1 + 1) = 0 from by omega, testBit_zero_two_mul]
        rfl
      · rw [if_neg h1, if_neg h2, if_neg (show ¬(i < j) from by omega), if_neg h3,
          decide_eq_false (show ¬(j - 1 = i) from by omega),
          show i - (j - 1 + 1) = (i - (j + 1)) + 1 from by omega, Nat.testBit_succ,
          show 2 * m / 2 = m from by omega]
        cases m.testBit (i - (j + 1)) <;> rfl

theorem pbt_right_child_cf (m j : Nat) (hj : 1 ≤ j) :
    pbt_right_child (cf m j) = some (cf (2 * m + 1) (j - 1)) := by
  unfold pbt_right_child
  rw [if_pos (cf_and_one m j hj)]
  congr 1
  rw [last_zero_bit_cf]
  have hsh : 2 ^ j >>> 1 = 2 ^ (j - 1) := by
    rw [Nat.shiftRight_eq_div_pow, pow_one, two_pow_pred j hj]
    exact Nat.mul_div_cancel_left _ (by omega)
  rw [hsh]
  apply Nat.eq_of_testBit_eq
  intro i
  rw [testBit_andNot, Nat.testBit_lor, Nat.testBit_two_pow, Nat.testBit_two_pow,
    testBit_cf m j i, testBit_cf (2 * m + 1) (j - 1) i]
  by_cases h1 : i < j - 1
  · rw [if_pos h1, if_pos (show i < j from by omega),
      decide_eq_false (show ¬(j = i) from by omega),
      decide_eq_false (show ¬(j - 1 = i) from by omega)]
    rfl
  · by_cases h2 : i = j - 1
    · rw [if_neg h1, if_pos h2, if_pos (show i < j from by omega),
        decide_eq_false (show ¬(j = i) from by omega),
        decide_eq_true (show j - 1 = i from h2.symm)]
      rfl
    · by_cases h3 : i = j
      · rw [if_neg h1, if_neg h2, if_neg (show ¬(i < j) from by omega), if_pos h3,
          decide_eq_true (show j = i from h3.symm),
          decide_eq_false (show ¬(j - 1 = i) from by omega),
          show i - (j - 1 + 1) = 0 from by omega, testBit_zero_two_mul_add_one]
        rfl
      · rw [if_neg h1, if_neg h2, if_neg (show ¬(i < j) from by omega), if_neg h3,
          decide_eq_false (show ¬(j = i) from by omega),
          decide_eq_false (show ¬(j - 1 = i) from by omega),
          show i - (j - 1 + 1) = (i - (j + 1)) + 1 from by omega, Nat.testBit_succ,
          show (2 * m + 1) / 2 = m from by omega]
        cases m.testBit (i - (j + 1)) <;> rfl

/-! ## Trailing ones -/

/-- The number of trailing one bits of `n`. -/
def tOnes (n : Nat) : Nat :=
  if h : n % 2 = 1 then tOnes (n / 2) + 1 else 0
termination_by n
decreasing_by exact Nat.div_lt_self (by omega) (by omega)

theorem tOnes_of_even (n : Nat) (h : n % 2 = 0) : tOnes n = 0 := by
  rw [tOnes]; simp [h]

theorem tOnes_of_odd (n : Nat) (h : n % 2 = 1) : tOnes n = tOnes (n / 2) + 1 := by
  rw [tOnes]; simp [h]

theorem cf_decomp (n : Nat) : n = cf (n / 2 ^ (tOnes n + 1)) (tOnes n) := by
  induction n using Nat.strong_induction_on with
  | _ n ih =>
    rcases Nat.mod_two_eq_zero_or_one n with h | h
    · rw [tOnes_of_even n h]
      unfold cf
      norm_num
      omega
    · rw [tOnes_of_odd n h]
      have hn : 0 < n := by omega
      have ih2 := ih (n / 2) (Nat.div_lt_self hn (by omega))
      unfold cf at ih2 ⊢
      have hdiv : n / 2 / 2 ^ (tOnes (n / 2) + 1) = n / 2 ^ (tOnes (n / 2) + 1 + 1) := by
        rw [Nat.div_div_eq_div_mul]
        congr 1
        rw [two_pow_succ]
        ring
      rw [hdiv] at ih2
      have e4 : n / 2 ^ (tOnes (n / 2) + 1 + 1) * 2 ^ (tOnes (n / 2) + 1 + 1) =
          2 * (n / 2 ^ (tOnes (n / 2) + 1 + 1) * 2 ^ (tOnes (n / 2) + 1)) := by
        rw [two_pow_succ]; ring
      have e2 := two_pow_succ (tOnes (n / 2))
      have e3 := Nat.two_pow_pos (tOnes (n / 2))
      omega

theorem tOnes_cf (m j : Nat) : tOnes (cf m j) = j := by
  induction j generalizing m with
  | zero =>
    apply tOnes_of_even
    rw [cf_mod_two]
    simp
  | succ j ih =>
    have hodd : cf m (j + 1) % 2 = 1 := cf_odd m (j + 1) (by omega)
    rw [tOnes_of_odd _ hodd]
    have hhalf : cf m (j + 1) / 2 = cf m j := by
      unfold cf
      have e4 : m * 2 ^ (j + 1 + 1) = 2 * (m * 2 ^ (j + 1)) := by
        rw [two_pow_succ]; ring
      have e2 := two_pow_succ j
      have e3 := Nat.two_pow_pos j
      omega
    rw [hhalf, ih]

theorem two_pow_tOnes_le (n : Nat) : 2 ^ tOnes n ≤ n + 1 := by
  have h := cf_decomp n
  unfold cf at h
  have := Nat.two_pow_pos (tOnes n)
  omega

theorem tOnes_le_self (n : Nat) : tOnes n ≤ n := by
  have h1 := two_pow_tOnes_le n
  have h2 := Nat.lt_two_pow (tOnes n)
  omega

theorem tOnes_two_pow_sub_one (k : Nat) : tOnes (2 ^ k - 1) = k := by
  have h : 2 ^ k - 1 = cf 0 k := by unfold cf; omega
  rw [h, tOnes_cf]

/-! ## `next_power_of_two` and `lpbt_root` -/

theorem npt_go_eq (t : Nat) :
    ∀ fuel n, n ≤ fuel → 2 ^ t < n → n ≤ 2 ^ (t + 1) → npt_go fuel n = 2 ^ (t + 1) := by
  induction t with
  | zero =>
    intro fuel n hf h1 h2
    norm_num at h1 h2
    have hn : n = 2 := by omega
    subst hn
    cases fuel with
    | zero => exact absurd hf (by omega)
    | succ f =>
      show npt_go (f + 1) 2 = 2 ^ 1
      unfold npt_go
      rw [if_neg (by omega)]
      have h3 : (2 + 1) / 2 = 1 := by omega
      rw [h3]
      cases f with
      | zero => rfl
      | succ f' =>
        show 2 * npt_go (f' + 1) 1 = 2 ^ 1
        unfold npt_go
        rw [if_pos (by omega)]
        norm_num
  | succ t iht =>
    intro fuel n hf h1 h2
    have e1 := two_pow_succ (t + 1)
    have e2 := two_pow_succ t
    have e3 := Nat.two_pow_pos t
    have hn3 : 3 ≤ n := by omega
    cases fuel with
    | zero => exact absurd hf (by omega)
    | succ f =>
      show npt_go (f + 1) n = 2 ^ (t + 1 + 1)
      unfold npt_go
      rw [if_neg (by omega)]
      have hrec : npt_go f ((n + 1) / 2) = 2 ^ (t + 1) :=
        iht f ((n + 1) / 2) (by omega) (by omega) (by omega)
      rw [hrec]
      have e5 := two_pow_succ (t + 1 + 1)
      omega

theorem next_power_of_two_eq (t n : Nat) (h1 : 2 ^ t < n) (h2 : n ≤ 2 ^ (t + 1)) :
    next_power_of_two n = 2 ^ (t + 1) :=
  npt_go_eq t n n le_rfl h1 h2

theorem lpbt_root_eq (t s : Nat) (h1 : 2 ^ t ≤ s) (h2 : s < 2 ^ (t + 1)) :
    lpbt_root s = 2 ^ t - 1 := by
  unfold lpbt_root
  rw [next_power_of_two_eq t (s + 1) (by omega) (by omega), Nat.shiftRight_eq_div_pow,
    pow_one]
  have e1 := two_pow_succ t
  have e2 := Nat.two_pow_pos t
  omega

theorem exists_pow_range (s : Nat) (hs : 1 ≤ s) :
    ∃ t, 2 ^ t ≤ s ∧ s < 2 ^ (t + 1) := by
  refine ⟨Nat.log 2 s, Nat.pow_log_le_self 2 (by omega), ?_⟩
  exact Nat.lt_pow_succ_log_self (by omega) s

theorem lpbt_root_lt (s : Nat) (hs : 1 ≤ s) : lpbt_root s < s := by
  obtain ⟨t, h1, h2⟩ := exists_pow_range s hs
  rw [lpbt_root_eq t s h1 h2]
  have := Nat.two_pow_pos t
  omega

/-! ## The embedded program -/

/-- Failure modes of the embedded fallible operations. -/
inductive MErr
  | panicked
  | leafOutOfBounds
  | structuralError
  | noChildren
  | fuelOut
deriving DecidableEq

/-- The tree's static configuration: the digest strategy as a pure function
`F`, together with the width parameters `N` (slot width) and `ND`
(concatenation buffer width). -/
structure Ctx where
  F : List Nat → List Nat
  N : Nat
  ND : Nat

abbrev Slots := List (List Nat)

abbrev MResult (α : Type) := Except MErr α

def LEAF_TAG : Nat := 1

def NODE_TAG : Nat := 2

/-- The construction-time assertions of `new`: `assert!(N < 8 * output_size)`
and `assert!(ND < 2 * 8 * output_size)`, where `d` is the digest's native
output byte length.  Construction succeeds exactly when this is `true`. -/
def new_checks (d n nd : Nat) : Bool :=
  decide (n < 8 * d) && decide (nd < 2 * (8 * d))

/-- `hash`: digest the data and keep the first `N` bytes; the slice
`out[..N]` panics when `N` exceeds the digest's output length. -/
def hash (c : Ctx) (data : List Nat) : MResult (List Nat) :=
  let out := c.F data
  if c.N ≤ out.length then .ok (out.take c.N) else .error .panicked

/-- `concat_hash`: fill an `ND`-byte buffer with `first` in `[0, N)` and
`second` in `[N, ND)` (the slicing and `copy_from_slice` panic unless
`N ≤ ND`, `|first| = N` and `|second| = ND − N`), then `hash` the buffer. -/
def concat_hash (c : Ctx) (first second : List Nat) : MResult (List Nat) :=
  if c.N ≤ c.ND ∧ first.length = c.N ∧ second.length = c.ND - c.N then
    hash c (first ++ second)
  else .error .panicked

/-- `tag_hash`: `concat_hash(vec![tag; N], hash(data))`. -/
def tag_hash (c : Ctx) (tag : Nat) (data : List Nat) : MResult (List Nat) := do
  let hashed ← hash c data
  concat_hash c (List.replicate c.N tag) hashed

/-- An indexing read `tree[i]`: panics when out of bounds. -/
def getSlot (tree : Slots) (i : Nat) : MResult (List Nat) :=
  match tree[i]? with
  | some v => .ok v
  | none => .error .panicked

/-- `tree[i].copy_from_slice(v)`: panics when out of bounds or when the
lengths differ. -/
def setSlot (tree : Slots) (i : Nat) (v : List Nat) : MResult Slots :=
  match tree[i]? with
  | some old => if v.length = old.length then .ok (tree.set i v) else .error .panicked
  | none => .error .panicked

/-- The `while let Some(parent_pos) = parent` walk of `lpbt_set`: recompute
the slot at `parent_pos` as the tagged hash of its two children, then move to
its parent.  `fuel` bounds the number of iterations of the source's unbounded
loop. -/
def set_walk (c : Ctx) : Nat → Slots → Nat → MResult Slots
  | 0, _, _ => .error .fuelOut
  | fuel + 1, tree, parent_pos =>
    match pbt_left_child parent_pos, lpbt_right_child parent_pos tree.length with
    | some left, some right => do
        let lv ← getSlot tree left
        let rv ← getSlot tree right
        let inner ← concat_hash c lv rv
        let h ← tag_hash c NODE_TAG inner
        let tree2 ← setSlot tree parent_pos h
        match lpbt_parent parent_pos tree2.length with
        | none => .ok tree2
        | some p => set_walk c fuel tree2 p
    | _, _ => .error .noChildren

/-- `lpbt_set`: bounds-check the leaf position, write `data` at
`leaf_pos * 2`, and recompute every ancestor up to the root. -/
def lpbt_set (c : Ctx) (tree : Slots) (leaf_pos : Nat) (data : List Nat) :
    MResult Slots :=
  if leaf_pos > tree.length / 2 then .error .leafOutOfBounds
  else do
    let pos := leaf_pos * 2
    let tree1 ← setSlot tree pos data
    match lpbt_parent pos tree1.length with
    | none => .error .structuralError
    | some p => set_walk c tree1.length tree1 p

/-- `add`: push one tagged leaf slot into an empty tree; otherwise push two
zero-filled slots (a reserved ancestor and the new leaf) and delegate to
`lpbt_set` at the new half-index. -/
def add (c : Ctx) (tree : Slots) (data : List Nat) : MResult Slots :=
  if tree.isEmpty then do
    let h ← tag_hash c LEAF_TAG data
    .ok (tree ++ [h])
  else do
    let tree1 := tree ++ [List.replicate c.N 0, List.replicate c.N 0]
    let h ← tag_hash c LEAF_TAG data
    lpbt_set c tree1 (tree1.length / 2) h

/-- `root`: `tree.get(lpbt_root(len)).cloned()`. -/
def root (tree : Slots) : Option (List Nat) := tree[lpbt_root tree.length]?

/-- Proof element directions. -/
inductive Dir
  | LEFT
  | RIGHT
deriving DecidableEq

/-- A proof element: a sibling hash plus the side it combines on. -/
structure ProofElement where
  hash : List Nat
  direction : Dir
deriving DecidableEq

/-- `create_proof_route`: depth-first search for a slot holding `target`,
recording the sibling hash and direction before descending and removing the
record (`route.remove(new_sz - 1)`) when the branch fails. -/
def create_proof_route (tree : Slots) : Nat → Nat → List Nat → List ProofElement →
    MResult (Bool × List ProofElement)
  | 0, _, _, _ => .error .fuelOut
  | fuel + 1, idx, target, route => do
    let v ← getSlot tree idx
    if v = target then .ok (true, route)
    else
      match pbt_left_child idx, lpbt_right_child idx tree.length with
      | some left, some right => do
          let rv ← getSlot tree right
          let route1 := route ++ [⟨rv, Dir.RIGHT⟩]
          let new_sz := route1.length
          let res ← create_proof_route tree fuel left target route1
          if res.1 then .ok (true, res.2)
          else
            let route3 := res.2.eraseIdx (new_sz - 1)
            let lv ← getSlot tree left
            let route4 := route3 ++ [⟨lv, Dir.LEFT⟩]
            let new_sz2 := route4.length
            let res2 ← create_proof_route tree fuel right target route4
            if res2.1 then .ok (true, res2.2)
            else .ok (false, res2.2.eraseIdx (new_sz2 - 1))
      | _, _ => .ok (false, route)

/-- `create_proof`: search from the root position for the tagged leaf hash of
`data`; on success return the recorded route reversed (leaf sibling first). -/
def create_proof (c : Ctx) (tree : Slots) (data : List Nat) :
    MResult (Option (List ProofElement)) := do
  let h ← tag_hash c LEAF_TAG data
  let res ← create_proof_route tree (tree.length + 1) (lpbt_root tree.length) h []
  if res.1 then .ok (some res.2.reverse) else .ok none

/-- `verify_proof`: fold the proof from the tagged leaf hash of `data`,
combining with each sibling on the recorded side, and compare the result
with `to_match` byte-wise. -/
def verify_proof (c : Ctx) (data : List Nat) (proof : List ProofElement)
    (to_match : List Nat) : MResult Bool := do
  let h ← tag_hash c LEAF_TAG data
  let generated ← proof.foldlM (fun acc e => do
    let inner ← match e.direction with
      | Dir.LEFT => concat_hash c e.hash acc
      | Dir.RIGHT => concat_hash c acc e.hash
    tag_hash c NODE_TAG inner) h
  .ok (decide (generated = to_match))

/-- Appending a list of payloads in order (how callers drive the tree). -/
def addAll (c : Ctx) (tree : Slots) : List (List Nat) → MResult Slots
  | [] => .ok tree
  | p :: ps => do
    let tree2 ← add c tree p
    addAll c tree2 ps

/-! ## Pure values under a well-formed configuration -/

/-- Truncated digest, as a pure value. -/
def hashV (c : Ctx) (data : List Nat) : List Nat := (c.F data).take c.N

def concatV (c : Ctx) (a b : List Nat) : List Nat := hashV c (a ++ b)

def tagV (c : Ctx) (tag : Nat) (data : List Nat) : List Nat :=
  concatV c (List.replicate c.N tag) (hashV c data)

def leafV (c : Ctx) (data : List Nat) : List Nat := tagV c LEAF_TAG data

/-- A well-formed configuration: the concatenation buffer holds exactly two
truncated hashes (`ND = 2N`), and the digest output is always long enough to
truncate (`N ≤ D` for a digest of output length `D`). -/
def GoodCtx (c : Ctx) : Prop :=
  c.ND = 2 * c.N ∧ ∀ x, c.N ≤ (c.F x).length

theorem hashV_length (c : Ctx) (hc : GoodCtx c) (data : List Nat) :
    (hashV c data).length = c.N := by
  unfold hashV
  rw [List.length_take]
  exact min_eq_left (hc.2 data)

theorem tagV_length (c : Ctx) (hc : GoodCtx c) (tag : Nat) (data : List Nat) :
    (tagV c tag data).length = c.N :=
  hashV_length c hc _

theorem hash_ok (c : Ctx) (hc : GoodCtx c) (data : List Nat) :
    hash c data = .ok (hashV c data) := by
  unfold hash hashV
  rw [if_pos (hc.2 data)]

theorem concat_hash_ok (c : Ctx) (hc : GoodCtx c) (a b : List Nat)
    (ha : a.length = c.N) (hb : b.length = c.N) :
    concat_hash c a b = .ok (concatV c a b) := by
  have e := hc.1
  unfold concat_hash
  rw [if_pos ⟨by omega, ha, by omega⟩]
  exact hash_ok c hc (a ++ b)

theorem tag_hash_ok (c : Ctx) (hc : GoodCtx c) (tag : Nat) (data : List Nat) :
    tag_hash c tag data = .ok (tagV c tag data) := by
  unfold tag_hash
  rw [hash_ok c hc]
  show concat_hash c (List.replicate c.N tag) (hashV c data) = _
  rw [concat_hash_ok c hc _ _ (List.length_replicate _ _) (hashV_length c hc data)]
  rfl

/-! ## The rewritten set of an append

`QSet t p` holds for the odd positions whose perfect-subtree span reaches
past the end of a sequence of size `t`; the ancestor walk of an append into
a tree of (new) size `t` visits exactly these positions. -/

theorem tOnes_pos_of_odd (n : Nat) (h : n % 2 = 1) : 1 ≤ tOnes n := by
  rw [tOnes_of_odd n h]; omega

def QSet (t p : Nat) : Prop := p % 2 = 1 ∧ p < t ∧ t ≤ p + 2 ^ tOnes p

theorem QSet_window (t p : Nat) (ht : t % 2 = 1) (hq : QSet t p) :
    ∃ m d, p = cf m (tOnes p) ∧ t - 1 = m * 2 ^ (tOnes p + 1) + d ∧
      2 ^ tOnes p ≤ d ∧ d ≤ 2 ^ (tOnes p + 1) - 2 := by
  obtain ⟨ho, hlt, hle⟩ := hq
  have hcf := cf_decomp p
  refine ⟨p / 2 ^ (tOnes p + 1), t - 1 - p / 2 ^ (tOnes p + 1) * 2 ^ (tOnes p + 1),
    hcf, ?_, ?_, ?_⟩ <;>
  · unfold cf at hcf
    have e := two_pow_succ (tOnes p)
    have epos := Nat.two_pow_pos (tOnes p)
    omega

theorem QSet_testBit (t p : Nat) (ht : t % 2 = 1) (hq : QSet t p) :
    (t - 1).testBit (tOnes p) = true := by
  obtain ⟨m, d, hp, hw, hd1, hd2⟩ := QSet_window t p ht hq
  rw [hw, testBit_mul_pow_add _ _ _ _
    (by have := Nat.two_pow_pos (tOnes p); have := two_pow_succ (tOnes p); omega)]
  rw [if_pos (by omega), Nat.testBit_to_div_mod]
  have hpos := Nat.two_pow_pos (tOnes p)
  have hdd : d / 2 ^ tOnes p = 1 := by
    have h1 : 1 ≤ d / 2 ^ tOnes p := (Nat.le_div_iff_mul_le hpos).mpr (by omega)
    have h2 : d / 2 ^ tOnes p < 2 :=
      (Nat.div_lt_iff_lt_mul hpos).mpr (by have := two_pow_succ (tOnes p); omega)
    omega
  rw [hdd]
  rfl

theorem QSet_uniq (t p q : Nat) (hp : QSet t p) (hq : QSet t q)
    (hj : tOnes p = tOnes q) : p = q := by
  obtain ⟨hpo, hplt, hple⟩ := hp
  obtain ⟨hqo, hqlt, hqle⟩ := hq
  have hpc := cf_decomp p
  have hqc := cf_decomp q
  rw [hj] at hpc hple
  unfold cf at hpc hqc
  set j := tOnes q
  set a := p / 2 ^ (j + 1) with hadef
  set b := q / 2 ^ (j + 1) with hbdef
  have e := two_pow_succ j
  have epos := Nat.two_pow_pos j
  have hb1 : (b + 1) * 2 ^ (j + 1) = b * 2 ^ (j + 1) + 2 ^ (j + 1) := by ring
  have ha1 : (a + 1) * 2 ^ (j + 1) = a * 2 ^ (j + 1) + 2 ^ (j + 1) := by ring
  have h1 : a * 2 ^ (j + 1) < (b + 1) * 2 ^ (j + 1) := by omega
  have h2 : b * 2 ^ (j + 1) < (a + 1) * 2 ^ (j + 1) := by omega
  have h3 : a < b + 1 := lt_of_mul_lt_mul_right h1 (Nat.zero_le _)
  have h4 : b < a + 1 := lt_of_mul_lt_mul_right h2 (Nat.zero_le _)
  have hab : a = b := by omega
  rw [hpc, hqc, hab]

theorem QSet_level_lower_bound (t : Nat) (ht : t % 2 = 1) (ht3 : 3 ≤ t) (p : Nat)
    (hq : QSet t p) : tOnes (t - 2) ≤ tOnes p := by
  by_contra hlt
  have hbit := QSet_testBit t p ht hq
  have hodd2 : (t - 2) % 2 = 1 := by omega
  have hc := cf_decomp (t - 2)
  set j0 := tOnes (t - 2)
  set m := (t - 2) / 2 ^ (j0 + 1)
  have ht1 : t - 1 = m * 2 ^ (j0 + 1) + 2 ^ j0 := by
    unfold cf at hc
    have := Nat.two_pow_pos j0
    omega
  rw [ht1, testBit_mul_pow_add _ _ _ _
    (by have := two_pow_succ j0; have := Nat.two_pow_pos j0; omega)] at hbit
  rw [if_pos (by omega), Nat.testBit_two_pow] at hbit
  simp at hbit
  omega

theorem QSet_start (t : Nat) (ht : t % 2 = 1) (ht3 : 3 ≤ t) : QSet t (t - 2) := by
  have hodd2 : (t - 2) % 2 = 1 := by omega
  refine ⟨hodd2, by omega, ?_⟩
  have h1 := tOnes_pos_of_odd (t - 2) hodd2
  have h2 : 2 ≤ 2 ^ tOnes (t - 2) := by
    calc 2 = 2 ^ 1 := rfl
    _ ≤ 2 ^ tOnes (t - 2) := Nat.pow_le_pow_right (by omega) h1
  omega

theorem lpbt_root_tOnes (t u : Nat) (h1 : 2 ^ u ≤ t) (h2 : t < 2 ^ (u + 1)) :
    tOnes (lpbt_root t) = u := by
  rw [lpbt_root_eq u t h1 h2, tOnes_two_pow_sub_one]

theorem QSet_root (t u : Nat) (ht : t % 2 = 1) (ht3 : 3 ≤ t)
    (h1 : 2 ^ u ≤ t) (h2 : t < 2 ^ (u + 1)) : QSet t (lpbt_root t) := by
  have hr := lpbt_root_eq u t h1 h2
  have hu : 1 ≤ u := by
    by_contra h
    have h0 : u = 0 := by omega
    subst h0
    have := two_pow_succ 0
    omega
  refine ⟨?_, ?_, ?_⟩
  · rw [hr]
    have := two_pow_pred u hu
    have := Nat.two_pow_pos (u - 1)
    omega
  · rw [hr]
    have := Nat.two_pow_pos u
    omega
  · rw [hr, tOnes_two_pow_sub_one]
    have := Nat.two_pow_pos u
    omega

theorem QSet_level_le_root (t u p : Nat) (h2 : t < 2 ^ (u + 1)) (hq : QSet t p) :
    tOnes p ≤ u := by
  by_contra h
  have hc := cf_decomp p
  unfold cf at hc
  have h3 : 2 ^ (u + 1) ≤ 2 ^ tOnes p := Nat.pow_le_pow_right (by omega) (by omega)
  have h4 := hq.2.1
  have := Nat.two_pow_pos (u + 1)
  omega

theorem QSet_eq_root (t u p : Nat) (ht : t % 2 = 1) (ht3 : 3 ≤ t)
    (h1 : 2 ^ u ≤ t) (h2 : t < 2 ^ (u + 1)) (hq : QSet t p)
    (hlev : tOnes (lpbt_root t) ≤ tOnes p) : p = lpbt_root t := by
  have hroot := QSet_root t u ht ht3 h1 h2
  have hle := QSet_level_le_root t u p h2 hq
  have hrl := lpbt_root_tOnes t u h1 h2
  exact QSet_uniq t p (lpbt_root t) hq hroot (by omega)

/-! ## Navigation around an odd position -/

theorem tOnes_decomp (n : Nat) : ∃ m j, tOnes n = j ∧ n = cf m j :=
  ⟨n / 2 ^ (tOnes n + 1), tOnes n, rfl, cf_decomp n⟩

theorem odd_decomp (n : Nat) (h : n % 2 = 1) :
    ∃ m j, 1 ≤ j ∧ tOnes n = j ∧ n = cf m j :=
  ⟨n / 2 ^ (tOnes n + 1), tOnes n, tOnes_pos_of_odd n h, rfl, cf_decomp n⟩

theorem children_of_odd (t q : Nat) (ht : t % 2 = 1) (ho : q % 2 = 1) (hlt : q < t) :
    ∃ l r, pbt_left_child q = some l ∧ lpbt_right_child q t = some r ∧
      l < t ∧ r < t ∧ tOnes l < tOnes q ∧ tOnes r < tOnes q := by
  obtain ⟨m, j, hj1, hjt, hdc⟩ := odd_decomp q ho
  rw [hjt]
  have hq2 := hdc
  unfold cf at hq2
  have e1 := two_pow_succ j
  have epos := Nat.two_pow_pos j
  have epos1 := Nat.two_pow_pos (j - 1)
  have e2 : (2 : Nat) ^ j = 2 * 2 ^ (j - 1) := two_pow_pred j hj1
  have hql : pbt_left_child q = some (cf (2 * m) (j - 1)) := by
    conv_lhs => rw [hdc]
    exact pbt_left_child_cf m j hj1
  have hqr : pbt_right_child q = some (cf (2 * m + 1) (j - 1)) := by
    conv_lhs => rw [hdc]
    exact pbt_right_child_cf m j hj1
  have ej : j - 1 + 1 = j := by omega
  have el : cf (2 * m) (j - 1) = m * 2 ^ (j + 1) + (2 ^ (j - 1) - 1) := by
    unfold cf
    rw [ej]
    have e3 : 2 * m * 2 ^ j = m * 2 ^ (j + 1) := by rw [two_pow_succ]; ring
    omega
  have er : cf (2 * m + 1) (j - 1) = q + 2 ^ (j - 1) := by
    unfold cf
    rw [ej]
    have e3 : (2 * m + 1) * 2 ^ j = m * 2 ^ (j + 1) + 2 ^ j := by
      rw [two_pow_succ]; ring
    omega
  have hstep : lpbt_right_child q t =
      some (if cf (2 * m + 1) (j - 1) < t then cf (2 * m + 1) (j - 1)
        else q + 1 + lpbt_root (t - q - 1)) := by
    unfold lpbt_right_child
    rw [if_pos (by rw [Nat.and_one_is_mod]; exact ho), hqr]
  by_cases hdir : cf (2 * m + 1) (j - 1) < t
  · rw [if_pos hdir] at hstep
    refine ⟨cf (2 * m) (j - 1), cf (2 * m + 1) (j - 1), hql, hstep, by omega, hdir,
      ?_, ?_⟩
    · rw [tOnes_cf]; omega
    · rw [tOnes_cf]; omega
  · rw [if_neg hdir] at hstep
    have hqt2 : q ≤ t - 2 := by omega
    have hj2 : 2 ≤ j := by
      by_contra hj2
      have hj1' : j = 1 := by omega
      rw [hj1'] at er hdir
      norm_num at er hdir
      omega
    set sz := t - q - 1 with hszdef
    have hsz1 : 1 ≤ sz := by omega
    obtain ⟨γ, hγ1, hγ2⟩ := exists_pow_range sz hsz1
    have hroot := lpbt_root_eq γ sz hγ1 hγ2
    have eγ := Nat.two_pow_pos γ
    have hval : q + 1 + lpbt_root (t - q - 1) = q + 2 ^ γ := by
      rw [← hszdef, hroot]
      omega
    have hγj : γ + 1 ≤ j - 1 := by
      have h5 : 2 ^ γ < 2 ^ (j - 1) := by omega
      by_contra h7
      have h8 : 2 ^ (j - 1) ≤ 2 ^ γ := Nat.pow_le_pow_right (by omega) (by omega)
      omega
    have hcfr : q + 2 ^ γ = cf (m * 2 ^ (j - γ) + 2 ^ (j - 1 - γ)) γ := by
      unfold cf
      have e5 : m * 2 ^ (j - γ) * 2 ^ (γ + 1) = m * 2 ^ (j + 1) := by
        rw [mul_assoc, ← pow_add]
        congr 2
        omega
      have e6 : (2 : Nat) ^ (j - 1 - γ) * 2 ^ (γ + 1) = 2 ^ j := by
        rw [← pow_add]
        congr 1
        omega
      have e9 : (m * 2 ^ (j - γ) + 2 ^ (j - 1 - γ)) * 2 ^ (γ + 1) =
          m * 2 ^ (j - γ) * 2 ^ (γ + 1) + 2 ^ (j - 1 - γ) * 2 ^ (γ + 1) := by ring
      omega
    rw [hval] at hstep
    refine ⟨cf (2 * m) (j - 1), q + 2 ^ γ, hql, hstep, by omega, by omega, ?_, ?_⟩
    · rw [tOnes_cf]; omega
    · rw [hcfr, tOnes_cf]; omega

theorem QSet_parent_step (t q : Nat) (ht : t % 2 = 1)
    (hq : QSet t q) (hne : q ≠ lpbt_root t) :
    ∃ P, lpbt_parent q t = some P ∧ QSet t P ∧ tOnes q < tOnes P ∧
      ∀ i, tOnes q < i → i < tOnes P → (t - 1).testBit i = false := by
  obtain ⟨ho, hlt, hle⟩ := hq
  obtain ⟨m, j, hj1, hjt, hdc⟩ := odd_decomp q ho
  rw [hjt] at hle ⊢
  have hq2 := hdc
  unfold cf at hq2
  have e1 := two_pow_succ j
  have e2 := two_pow_succ (j + 1)
  have epos := Nat.two_pow_pos j
  have epos2 := Nat.two_pow_pos (j + 1)
  have hparent : pbt_parent q = cf (m / 2) (j + 1) := by
    conv_lhs => rw [hdc]
    exact pbt_parent_cf m j
  have hpexp : cf (m / 2) (j + 1) = m / 2 * 2 ^ (j + 2) + (2 ^ (j + 1) - 1) := rfl
  unfold lpbt_parent
  rw [if_neg hne, hparent]
  by_cases hdir : cf (m / 2) (j + 1) < t
  · rw [if_pos hdir]
    refine ⟨_, rfl, ⟨?_, hdir, ?_⟩, ?_, ?_⟩
    · rw [cf_mod_two]
      simp
    · rw [tOnes_cf]
      have hkey : m * 2 ^ (j + 1) ≤ m / 2 * 2 ^ (j + 2) + 2 ^ (j + 1) := by
        calc m * 2 ^ (j + 1) ≤ (2 * (m / 2) + 1) * 2 ^ (j + 1) :=
              Nat.mul_le_mul_right _ (by omega)
          _ = m / 2 * 2 ^ (j + 2) + 2 ^ (j + 1) := by
              rw [two_pow_succ (j + 1)]; ring
      rw [hpexp]
      omega
    · rw [tOnes_cf]; omega
    · intro i hi1 hi2
      rw [tOnes_cf] at hi2
      exact absurd hi1 (by omega)
  · rw [if_neg hdir]
    have hm1 : 1 ≤ m := by
      by_contra hm0
      have hm0' : m = 0 := by omega
      rw [hm0'] at hq2
      have hr : lpbt_root t = 2 ^ j - 1 := lpbt_root_eq j t (by omega) (by omega)
      exact hne (by omega)
    have hlast : pbt_leftmost_leaf q = m * 2 ^ (j + 1) := by
      conv_lhs => rw [hdc]
      exact pbt_leftmost_leaf_cf m j
    rw [hlast]
    set P := m * 2 ^ (j + 1) - 1 with hPdef
    obtain ⟨A, τ, hτdef, hPdc⟩ := tOnes_decomp P
    have hP2 := hPdc
    unfold cf at hP2
    have eτ := Nat.two_pow_pos τ
    have hmpos : 1 ≤ m * 2 ^ (j + 1) := Nat.mul_pos hm1 epos2
    have hP1 : P + 1 = m * 2 ^ (j + 1) := by omega
    have hjτ : j + 1 ≤ τ := by
      by_contra hc
      have hd1 : 2 ^ (τ + 1) ∣ P + 1 := by
        rw [hP1]
        have hsplit : (2 : Nat) ^ (j + 1) = 2 ^ (τ + 1) * 2 ^ (j - τ) := by
          rw [← pow_add]; congr 1; omega
        rw [hsplit]
        exact ⟨m * 2 ^ (j - τ), by ring⟩
      obtain ⟨k, hk⟩ := hd1
      have hmod1 : (P + 1) % 2 ^ (τ + 1) = 2 ^ τ := by
        rw [show P + 1 = 2 ^ (τ + 1) * A + 2 ^ τ from by
          rw [Nat.mul_comm]; omega, Nat.mul_add_mod]
        exact Nat.mod_eq_of_lt (by have := two_pow_succ τ; omega)
      have hmod2 : (P + 1) % 2 ^ (τ + 1) = 0 := by
        rw [hk]
        exact Nat.mul_mod_right _ _
      omega
    refine ⟨P, rfl, ⟨?_, by omega, ?_⟩, by rw [hτdef]; omega, ?_⟩
    · rw [hPdc, cf_mod_two, if_neg (by omega)]
    · rw [hτdef]
      have h6 : (2 : Nat) ^ (j + 1) ≤ 2 ^ τ := Nat.pow_le_pow_right (by omega) hjτ
      omega
    · intro i hi1 hi2
      rw [hτdef] at hi2
      have hfac : m = (2 * A + 1) * 2 ^ (τ - j - 1) := by
        have h7 : m * 2 ^ (j + 1) = (2 * A + 1) * 2 ^ τ := by
          rw [← hP1, show P + 1 = A * 2 ^ (τ + 1) + 2 ^ τ from by omega,
            two_pow_succ τ]
          ring
        have h8 : (2 : Nat) ^ τ = 2 ^ (τ - j - 1) * 2 ^ (j + 1) := by
          rw [← pow_add]; congr 1; omega
        rw [h8] at h7
        have h9 : m * 2 ^ (j + 1) = (2 * A + 1) * 2 ^ (τ - j - 1) * 2 ^ (j + 1) := by
          rw [h7]; ring
        exact Nat.eq_of_mul_eq_mul_right epos2 h9
      obtain ⟨m2, d, hpm, hw, hd1, hd2⟩ :=
        QSet_window t q ht ⟨ho, hlt, by rw [hjt]; exact hle⟩
      rw [hjt] at hpm hw hd1 hd2
      have hm2 : m2 = m := by
        have hmm : m2 * 2 ^ (j + 1) = m * 2 ^ (j + 1) := by
          unfold cf at hpm
          omega
        exact Nat.eq_of_mul_eq_mul_right epos2 hmm
      rw [hm2] at hw
      rw [hw, testBit_mul_pow_add _ _ _ _ (by omega), if_neg (by omega), hfac,
        testBit_mul_pow, if_pos (by omega)]

theorem first_parent (t : Nat) (ht : t % 2 = 1) (ht3 : 3 ≤ t) :
    lpbt_parent (t - 1) t = some (t - 2) := by
  obtain ⟨u, hu1, hu2⟩ := exists_pow_range t (by omega)
  have hrooteq := lpbt_root_eq u t hu1 hu2
  have hu : 1 ≤ u := by
    by_contra h
    have h0 : u = 0 := by omega
    subst h0
    have := two_pow_succ 0
    omega
  have hup := two_pow_pred u hu
  have hupos := Nat.two_pow_pos (u - 1)
  have hev : (t - 1) % 2 = 0 := by omega
  obtain ⟨m, j, hjt, hdc⟩ := tOnes_decomp (t - 1)
  have hj0 : j = 0 := by rw [tOnes_of_even _ hev] at hjt; omega
  subst hj0
  have hm2 : 2 * m = t - 1 := by
    unfold cf at hdc
    norm_num at hdc
    omega
  unfold lpbt_parent
  rw [if_neg (by rw [hrooteq]; omega)]
  have hparent : pbt_parent (t - 1) = cf (m / 2) 1 := by
    conv_lhs => rw [hdc]
    exact pbt_parent_cf m 0
  have hlast : pbt_leftmost_leaf (t - 1) = m * 2 ^ (0 + 1) := by
    conv_lhs => rw [hdc]
    exact pbt_leftmost_leaf_cf m 0
  rw [hparent, hlast]
  have hcf1 : cf (m / 2) 1 = m / 2 * 4 + 1 := by
    unfold cf
    norm_num
  have hml : m * 2 ^ (0 + 1) = 2 * m := by norm_num; ring
  rw [hcf1, hml]
  by_cases hdir : m / 2 * 4 + 1 < t
  · rw [if_pos hdir]
    congr 1
    omega
  · rw [if_neg hdir]
    congr 1
    omega

/-! ## The ancestor walk -/

theorem mbind_ok {α β : Type} (a : α) (f : α → MResult β) :
    (Except.ok a : MResult α) >>= f = f a := rfl

theorem getSlot_ok (tree : Slots) (i : Nat) (v : List Nat) (h : tree[i]? = some v) :
    getSlot tree i = .ok v := by
  unfold getSlot
  rw [h]

theorem setSlot_ok (tree : Slots) (i : Nat) (v old : List Nat)
    (h : tree[i]? = some old) (hlen : v.length = old.length) :
    setSlot tree i v = .ok (tree.set i v) := by
  unfold setSlot
  rw [h]
  simp [hlen]

theorem slot_exists (tree : Slots) (i : Nat) (h : i < tree.length) :
    ∃ v, tree[i]? = some v ∧ v ∈ tree :=
  ⟨tree[i], List.getElem?_eq_getElem h, List.getElem_mem h⟩

theorem widths_set (c : Ctx) (tree : Slots) (q : Nat) (v : List Nat)
    (hw : ∀ w ∈ tree, w.length = c.N) (hv : v.length = c.N) :
    ∀ w ∈ tree.set q v, w.length = c.N := by
  intro w hwmem
  rcases List.mem_or_eq_of_mem_set hwmem with h | h
  · exact hw w h
  · rw [h]; exact hv

/-- The local Merkle recombination equation at an internal slot `p`. -/
def INVnode (c : Ctx) (tree : Slots) (p : Nat) : Prop :=
  ∃ l r lv rv,
    pbt_left_child p = some l ∧ lpbt_right_child p tree.length = some r ∧
    tree[l]? = some lv ∧ tree[r]? = some rv ∧
    tree[p]? = some (tagV c NODE_TAG (concatV c lv rv))

theorem set_walk_spec (c : Ctx) (hc : GoodCtx c) (t : Nat) (ht : t % 2 = 1)
    (ht3 : 3 ≤ t) :
    ∀ fuel tree q, tree.length = t → (∀ v ∈ tree, v.length = c.N) →
      QSet t q → t ≤ fuel + tOnes q →
      ∃ tree2, set_walk c fuel tree q = .ok tree2 ∧
        tree2.length = t ∧ (∀ v ∈ tree2, v.length = c.N) ∧
        (∀ x, ¬(QSet t x ∧ tOnes q ≤ tOnes x) → tree2[x]? = tree[x]?) ∧
        (∀ x, QSet t x → tOnes q ≤ tOnes x → INVnode c tree2 x) := by
  intro fuel
  induction fuel with
  | zero =>
    intro tree q hlen hw hq hfuel
    exfalso
    have h1 := tOnes_le_self q
    have h2 := hq.2.1
    omega
  | succ fuel ih =>
    intro tree q hlen hw hq hfuel
    obtain ⟨hqo, hqlt, hqle⟩ := hq
    obtain ⟨l, r, hl, hr, hlt', hrt, htl, htr⟩ := children_of_odd t q ht hqo hqlt
    obtain ⟨lv, hlv, hlvm⟩ := slot_exists tree l (by omega)
    obtain ⟨rv, hrv, hrvm⟩ := slot_exists tree r (by omega)
    obtain ⟨qv, hqv, hqvm⟩ := slot_exists tree q (by omega)
    have hlvN := hw lv hlvm
    have hrvN := hw rv hrvm
    have hqvN := hw qv hqvm
    have hlq : l ≠ q := fun hcontra => by rw [hcontra] at htl; omega
    have hrq : r ≠ q := fun hcontra => by rw [hcontra] at htr; omega
    have hqlen : q < tree.length := by omega
    have hset : setSlot tree q (tagV c NODE_TAG (concatV c lv rv)) =
        .ok (tree.set q (tagV c NODE_TAG (concatV c lv rv))) :=
      setSlot_ok tree q _ qv hqv (by rw [tagV_length c hc, hqvN])
    have hlen2 : (tree.set q (tagV c NODE_TAG (concatV c lv rv))).length = t := by
      rw [List.length_set, hlen]
    have hw2 : ∀ w ∈ tree.set q (tagV c NODE_TAG (concatV c lv rv)), w.length = c.N :=
      widths_set c tree q _ hw (tagV_length c hc _ _)
    have hstep : set_walk c (fuel + 1) tree q =
        match lpbt_parent q t with
        | none => .ok (tree.set q (tagV c NODE_TAG (concatV c lv rv)))
        | some p => set_walk c fuel (tree.set q (tagV c NODE_TAG (concatV c lv rv))) p := by
      simp only [set_walk, hlen, hl, hr, getSlot_ok tree l lv hlv, getSlot_ok tree r rv hrv,
        concat_hash_ok c hc lv rv hlvN hrvN, tag_hash_ok c hc, hset, mbind_ok, hlen2]
    by_cases hroot : q = lpbt_root t
    · have hnone : lpbt_parent q t = none := by
        unfold lpbt_parent
        rw [if_pos hroot]
      rw [hnone] at hstep
      refine ⟨tree.set q (tagV c NODE_TAG (concatV c lv rv)), hstep, hlen2, hw2, ?_, ?_⟩
      · intro x hx
        have hxq : x ≠ q := by
          intro hcontra
          exact hx (by rw [hcontra]; exact ⟨⟨hqo, hqlt, hqle⟩, le_rfl⟩)
        exact List.getElem?_set_ne (by omega)
      · intro x hxq hxt
        obtain ⟨u, hu1, hu2⟩ := exists_pow_range t (by omega)
        have hxr : x = lpbt_root t := by
          apply QSet_eq_root t u x ht ht3 hu1 hu2 hxq
          rw [← hroot]
          exact hxt
        rw [hxr, ← hroot]
        refine ⟨l, r, lv, rv, hl, ?_, ?_, ?_, ?_⟩
        · rw [hlen2]
          exact hr
        · rw [List.getElem?_set_ne (by omega)]
          exact hlv
        · rw [List.getElem?_set_ne (by omega)]
          exact hrv
        · rw [List.getElem?_set_self hqlen]
    · obtain ⟨P, hP, hQP, hPt, hgap⟩ := QSet_parent_step t q ht ⟨hqo, hqlt, hqle⟩ hroot
      rw [hP] at hstep
      obtain ⟨tree3, hrun, hlen3, hw3, hsame3, hinv3⟩ :=
        ih (tree.set q (tagV c NODE_TAG (concatV c lv rv))) P hlen2 hw2 hQP (by omega)
      refine ⟨tree3, by rw [hstep]; exact hrun, hlen3, hw3, ?_, ?_⟩
      · intro x hx
        have hx2 : ¬(QSet t x ∧ tOnes P ≤ tOnes x) := by
          intro ⟨h1, h2⟩
          exact hx ⟨h1, by omega⟩
        rw [hsame3 x hx2]
        have hxq : x ≠ q := by
          intro hcontra
          exact hx (by rw [hcontra]; exact ⟨⟨hqo, hqlt, hqle⟩, le_rfl⟩)
        exact List.getElem?_set_ne (by omega)
      · intro x hxq hxt
        by_cases hxP : tOnes P ≤ tOnes x
        · exact hinv3 x hxq hxP
        · have hxlev : tOnes x = tOnes q := by
            by_contra hne2
            have hbit := QSet_testBit t x ht hxq
            rw [hgap (tOnes x) (by omega) (by omega)] at hbit
            exact Bool.false_ne_true hbit
          have hxeq : x = q := QSet_uniq t x q hxq ⟨hqo, hqlt, hqle⟩ hxlev
          subst hxeq
          refine ⟨l, r, lv, rv, hl, ?_, ?_, ?_, ?_⟩
          · rw [hlen3]
            exact hr
          · rw [hsame3 l (by intro ⟨h1, h2⟩; omega), List.getElem?_set_ne (by omega)]
            exact hlv
          · rw [hsame3 r (by intro ⟨h1, h2⟩; omega), List.getElem?_set_ne (by omega)]
            exact hrv
          · rw [hsame3 x (by intro ⟨h1, h2⟩; omega), List.getElem?_set_self hqlen]

/-! ## Stability of positions off the rewritten set -/

theorem children_stable (t p : Nat) (ht : t % 2 = 1) (ht3 : 3 ≤ t)
    (ho : p % 2 = 1) (hlt : p < t) (hnq : ¬QSet t p) :
    ∃ l r, pbt_left_child p = some l ∧
      lpbt_right_child p (t - 2) = some r ∧ lpbt_right_child p t = some r ∧
      l < t - 2 ∧ r < t - 2 ∧ ¬QSet t l ∧ ¬QSet t r ∧ p < t - 2 := by
  obtain ⟨m, j, hj1, hjt, hdc⟩ := odd_decomp p ho
  have hq2 := hdc
  unfold cf at hq2
  have e1 := two_pow_succ j
  have epos := Nat.two_pow_pos j
  have epos1 := Nat.two_pow_pos (j - 1)
  have e2 : (2 : Nat) ^ j = 2 * 2 ^ (j - 1) := two_pow_pred j hj1
  have hspan : p + 2 ^ j < t := by
    by_contra hcon
    exact hnq ⟨ho, hlt, by rw [hjt]; omega⟩
  have hp4 : p + 4 ≤ t := by omega
  have hql : pbt_left_child p = some (cf (2 * m) (j - 1)) := by
    conv_lhs => rw [hdc]
    exact pbt_left_child_cf m j hj1
  have hqr : pbt_right_child p = some (cf (2 * m + 1) (j - 1)) := by
    conv_lhs => rw [hdc]
    exact pbt_right_child_cf m j hj1
  have ej : j - 1 + 1 = j := by omega
  have el : cf (2 * m) (j - 1) = m * 2 ^ (j + 1) + (2 ^ (j - 1) - 1) := by
    unfold cf
    rw [ej]
    have e3 : 2 * m * 2 ^ j = m * 2 ^ (j + 1) := by rw [two_pow_succ]; ring
    omega
  have er : cf (2 * m + 1) (j - 1) = p + 2 ^ (j - 1) := by
    unfold cf
    rw [ej]
    have e3 : (2 * m + 1) * 2 ^ j = m * 2 ^ (j + 1) + 2 ^ j := by
      rw [two_pow_succ]; ring
    omega
  have hrsmall : cf (2 * m + 1) (j - 1) < t - 2 := by omega
  have hstepgen : ∀ s, cf (2 * m + 1) (j - 1) < s →
      lpbt_right_child p s = some (cf (2 * m + 1) (j - 1)) := by
    intro s hs
    unfold lpbt_right_child
    rw [if_pos (by rw [Nat.and_one_is_mod]; exact ho), hqr]
    simp [hs]
  refine ⟨cf (2 * m) (j - 1), cf (2 * m + 1) (j - 1), hql,
    hstepgen (t - 2) hrsmall, hstepgen t (by omega), by omega, hrsmall, ?_, ?_, by omega⟩
  · intro hcon
    have hsp := hcon.2.2
    rw [tOnes_cf] at hsp
    omega
  · intro hcon
    have hsp := hcon.2.2
    rw [tOnes_cf] at hsp
    omega

/-! ## The state invariant and its preservation by `add` -/

/-- The invariant tying a tree state to the payloads appended so far: the
size is `2k − 1`, the `i`-th leaf hash sits at the even position `2 i`, every
odd slot satisfies the local recombination equation, and every slot is
exactly `N` bytes wide. -/
structure Inv (c : Ctx) (ps : List (List Nat)) (tree : Slots) : Prop where
  len_eq : tree.length = 2 * ps.length - 1
  leaves : ∀ i pi, ps[i]? = some pi → tree[2 * i]? = some (leafV c pi)
  nodes : ∀ p, p < tree.length → p % 2 = 1 → INVnode c tree p
  widths : ∀ v ∈ tree, v.length = c.N

theorem Inv_nil (c : Ctx) : Inv c [] [] := by
  constructor
  · simp
  · intro i pi hpi
    simp at hpi
  · intro p hp hodd
    simp at hp
  · intro v hv
    simp at hv

theorem add_inv (c : Ctx) (hc : GoodCtx c) (ps : List (List Nat)) (tree : Slots)
    (hinv : Inv c ps tree) (x : List Nat) :
    ∃ tree2, add c tree x = .ok tree2 ∧ Inv c (ps ++ [x]) tree2 := by
  rcases Nat.eq_zero_or_pos ps.length with hk | hk
  · have hps : ps = [] := List.length_eq_zero.mp hk
    have htree : tree = [] := by
      have h := hinv.len_eq
      rw [hps] at h
      simp at h
      exact h
    subst hps
    subst htree
    refine ⟨[leafV c x], ?_, ?_⟩
    · unfold add
      rw [if_pos (by rfl), tag_hash_ok c hc, mbind_ok]
      rfl
    · constructor
      · simp
      · intro i pi hpi
        rcases i with _ | i
        · simp at hpi
          subst hpi
          rfl
        · simp at hpi
      · intro p hp hodd
        simp at hp
        omega
      · intro v hv
        simp at hv
        rw [hv]
        exact tagV_length c hc _ _
  · have htree_len := hinv.len_eq
    set k := ps.length with hkdef
    set t := 2 * k + 1 with htdef
    have htne : tree ≠ [] := by
      intro hcontra
      rw [hcontra] at htree_len
      simp at htree_len
      omega
    have ht : t % 2 = 1 := by omega
    have ht3 : 3 ≤ t := by omega
    set z := List.replicate c.N 0 with hzdef
    set tree1 := tree ++ [z, z] with htree1def
    have hlen1 : tree1.length = t := by
      rw [htree1def, List.length_append, htree_len]
      simp
      omega
    have hw1 : ∀ v ∈ tree1, v.length = c.N := by
      intro v hv
      rw [htree1def] at hv
      rcases List.mem_append.mp hv with h | h
      · exact hinv.widths v h
      · have hv2 : v = z := by
          rcases List.mem_cons.mp h with h2 | h2
          · exact h2
          · exact List.mem_singleton.mp h2
        rw [hv2, hzdef]
        exact List.length_replicate _ _
    have hz_at : tree1[t - 1]? = some z := by
      rw [htree1def, List.getElem?_append_right (by omega)]
      rw [show t - 1 - tree.length = 1 from by omega]
      rfl
    have hsetleaf : setSlot tree1 (t - 1) (tagV c LEAF_TAG x) =
        .ok (tree1.set (t - 1) (tagV c LEAF_TAG x)) :=
      setSlot_ok tree1 _ _ z hz_at
        (by rw [tagV_length c hc, hzdef, List.length_replicate])
    set tree2 := tree1.set (t - 1) (tagV c LEAF_TAG x) with htree2def
    have hlen2 : tree2.length = t := by rw [htree2def, List.length_set, hlen1]
    have hw2 : ∀ v ∈ tree2, v.length = c.N :=
      widths_set c tree1 _ _ hw1 (tagV_length c hc _ _)
    obtain ⟨tree3, hwalk, hlen3, hw3, hsame3, hinv3⟩ :=
      set_walk_spec c hc t ht ht3 t tree2 (t - 2) hlen2 hw2 (QSet_start t ht ht3)
        (by omega)
    have hpos2 : t / 2 * 2 = t - 1 := by omega
    have hrun : add c tree x = .ok tree3 := by
      unfold add
      rw [if_neg (by rw [List.isEmpty_iff]; exact htne)]
      simp only [tag_hash_ok c hc, mbind_ok]
      show lpbt_set c tree1 (tree1.length / 2) (tagV c LEAF_TAG x) = .ok tree3
      unfold lpbt_set
      rw [if_neg (by omega)]
      rw [hlen1, hpos2]
      simp only [hsetleaf, mbind_ok]
      simp only [hlen2, first_parent t ht ht3]
      exact hwalk
    refine ⟨tree3, hrun, ?_⟩
    have hleafval : tree3[t - 1]? = some (leafV c x) := by
      rw [hsame3 (t - 1) (by intro hcon; have := hcon.1.1; omega)]
      rw [htree2def, List.getElem?_set_self (by omega)]
      rfl
    have transfer : ∀ y, y < t - 2 → ¬QSet t y → tree3[y]? = tree[y]? := by
      intro y hy hynQ
      rw [hsame3 y (fun hcon => hynQ hcon.1)]
      rw [htree2def, List.getElem?_set_ne (by omega), htree1def,
        List.getElem?_append_left (by omega)]
    constructor
    · rw [hlen3]
      simp
      omega
    · intro i pi hpi
      by_cases hik : i < k
      · rw [List.getElem?_append_left (by omega)] at hpi
        have hold := hinv.leaves i pi hpi
        have h2i : 2 * i < t - 2 := by omega
        rw [transfer (2 * i) h2i (by intro hq; have := hq.1; omega)]
        exact hold
      · have hik2 : i = k := by
          by_contra hne2
          rw [List.getElem?_append_right (by omega)] at hpi
          rw [List.getElem?_eq_none (by simp; omega)] at hpi
          exact Option.noConfusion hpi
        subst hik2
        rw [List.getElem?_append_right (by omega)] at hpi
        rw [show k - ps.length = 0 from by omega] at hpi
        simp at hpi
        subst hpi
        rw [show 2 * k = t - 1 from by omega]
        exact hleafval
    · intro p hp hodd
      rw [hlen3] at hp
      by_cases hpQ : QSet t p
      · exact hinv3 p hpQ (QSet_level_lower_bound t ht ht3 p hpQ)
      · obtain ⟨l, r, hL, hRold, hRnew, hlb, hrb, hlnQ, hrnQ, hpb⟩ :=
          children_stable t p ht ht3 hodd hp hpQ
        have hOLD := hinv.nodes p (by omega) hodd
        obtain ⟨l0, r0, lv, rv, hL0, hR0, hlv, hrv, hpv⟩ := hOLD
        have hleq : l0 = l := by
          rw [hL] at hL0
          exact (Option.some_inj.mp hL0).symm
        have hreq : r0 = r := by
          rw [htree_len] at hR0
          rw [show 2 * k - 1 = t - 2 from by omega] at hR0
          rw [hRold] at hR0
          exact (Option.some_inj.mp hR0).symm
        subst hleq
        subst hreq
        refine ⟨l0, r0, lv, rv, hL, ?_, ?_, ?_, ?_⟩
        · rw [hlen3]
          exact hRnew
        · rw [transfer l0 hlb hlnQ]
          exact hlv
        · rw [transfer r0 hrb hrnQ]
          exact hrv
        · rw [transfer p hpb hpQ]
          exact hpv
    · exact hw3

theorem addAll_inv (c : Ctx) (hc : GoodCtx c) :
    ∀ (todo done : List (List Nat)) (tree : Slots), Inv c done tree →
      ∃ tree2, addAll c tree todo = .ok tree2 ∧ Inv c (done ++ todo) tree2 := by
  intro todo
  induction todo with
  | nil =>
    intro done tree hinv
    exact ⟨tree, rfl, by rw [List.append_nil]; exact hinv⟩
  | cons p ps ih =>
    intro done tree hinv
    obtain ⟨tree2, hadd, hinv2⟩ := add_inv c hc done tree hinv p
    obtain ⟨tree3, hrest, hinv3⟩ := ih (done ++ [p]) tree2 hinv2
    refine ⟨tree3, ?_, ?_⟩
    · unfold addAll
      rw [hadd, mbind_ok]
      exact hrest
    · rw [List.append_assoc] at hinv3
      simpa using hinv3

theorem root_none_iff (tree : Slots) : root tree = none ↔ tree = [] := by
  constructor
  · intro h
    by_contra hne
    have hlen : 1 ≤ tree.length := by
      rcases tree with _ | ⟨a, t2⟩
      · exact absurd rfl hne
      · simp
    have hlt := lpbt_root_lt tree.length hlen
    obtain ⟨v, hv, _⟩ := slot_exists tree _ hlt
    unfold root at h
    rw [hv] at h
    exact Option.noConfusion h
  · intro h
    subst h
    rfl

/-! ## Proof-route correctness -/

theorem mbind_err {α β : Type} (e : MErr) (f : α → MResult β) :
    (Except.error e : MResult α) >>= f = .error e := rfl

theorem if_fst_false {α : Type} (p : List ProofElement) (a b : MResult α) :
    (if (false, p).1 = true then a else b) = b := rfl

theorem if_fst_true {α : Type} (p : List ProofElement) (a b : MResult α) :
    (if (true, p).1 = true then a else b) = a := rfl

theorem snd_pair {α β : Type} (a : α) (b : β) : (a, b).2 = b := rfl

theorem getElem?_some_lt {α : Type} (l : List α) (i : Nat) (v : α)
    (h : l[i]? = some v) : i < l.length := by
  by_contra hn
  rw [List.getElem?_eq_none (by omega)] at h
  exact Option.noConfusion h

theorem mem_of_getElem_some {α : Type} (l : List α) (i : Nat) (v : α)
    (h : l[i]? = some v) : v ∈ l := by
  induction l generalizing i with
  | nil => exact Option.noConfusion h
  | cons a tl ih =>
    cases i with
    | zero =>
      rw [List.getElem?_cons_zero] at h
      rw [← Option.some_inj.mp h]
      exact List.mem_cons_self a tl
    | succ n =>
      rw [List.getElem?_cons_succ] at h
      exact List.mem_cons_of_mem a (ih n h)

theorem eraseIdx_concat {α : Type} (l : List α) (x : α) :
    (l ++ [x]).eraseIdx l.length = l := by
  induction l with
  | nil => rfl
  | cons a tl ih =>
    show List.eraseIdx (a :: (tl ++ [x])) (tl.length + 1) = a :: tl
    rw [List.eraseIdx_cons_succ, ih]

theorem pbt_left_child_odd (n l : Nat) (h : pbt_left_child n = some l) :
    n % 2 = 1 := by
  unfold pbt_left_child at h
  by_cases ho : n &&& 1 = 1
  · rwa [Nat.and_one_is_mod] at ho
  · rw [if_neg ho] at h
    exact Option.noConfusion h

theorem pbt_left_child_even (n : Nat) (h : n % 2 = 0) :
    pbt_left_child n = none := by
  unfold pbt_left_child
  rw [if_neg (show ¬(n &&& 1 = 1) from by rw [Nat.and_one_is_mod, h]; decide)]

/-- Rebuilding a hash chain bottom-up along a route (leaf-nearest first). -/
def chainFold (c : Ctx) (start : List Nat) (pf : List ProofElement) : List Nat :=
  pf.foldl (fun acc e =>
    match e.direction with
    | Dir.LEFT => tagV c NODE_TAG (concatV c e.hash acc)
    | Dir.RIGHT => tagV c NODE_TAG (concatV c acc e.hash)) start

theorem chainFold_append (c : Ctx) (s : List Nat) (l1 l2 : List ProofElement) :
    chainFold c s (l1 ++ l2) = chainFold c (chainFold c s l1) l2 := by
  unfold chainFold
  rw [List.foldl_append]

theorem chainFold_right (c : Ctx) (s hs : List Nat) :
    chainFold c s [⟨hs, Dir.RIGHT⟩] = tagV c NODE_TAG (concatV c s hs) := rfl

theorem chainFold_left (c : Ctx) (s hs : List Nat) :
    chainFold c s [⟨hs, Dir.LEFT⟩] = tagV c NODE_TAG (concatV c hs s) := rfl

/-- A failing branch of the depth-first search restores the route it was
given (the `route.remove(new_sz - 1)` calls undo both pushes). -/
theorem route_fail_restores (tree : Slots) :
    ∀ fuel idx target route0 out,
      create_proof_route tree fuel idx target route0 = .ok (false, out) →
      out = route0 := by
  intro fuel
  induction fuel with
  | zero =>
    intro idx target route0 out h
    simp [create_proof_route] at h
  | succ fuel ih =>
    intro idx target route0 out h
    rcases hslot : tree[idx]? with _ | v
    · simp [create_proof_route, getSlot, hslot, mbind_err] at h
    · simp only [create_proof_route, getSlot, hslot, mbind_ok] at h
      by_cases heq : v = target
      · rw [if_pos heq] at h
        simp at h
      · rw [if_neg heq] at h
        rcases hl : pbt_left_child idx with _ | left
        · rcases hr0 : lpbt_right_child idx tree.length with _ | right
          · simp [hl, hr0] at h
            exact h.symm
          · simp [hl, hr0] at h
            exact h.symm
        · rcases hr0 : lpbt_right_child idx tree.length with _ | right
          · simp [hl, hr0] at h
            exact h.symm
          · simp only [hl, hr0] at h
            rcases hrv : tree[right]? with _ | rv
            · simp [getSlot, hrv, mbind_err] at h
            · simp only [getSlot, hrv, mbind_ok] at h
              rcases hrecl : create_proof_route tree fuel left target
                  (route0 ++ [⟨rv, Dir.RIGHT⟩]) with e | ⟨b, out_l⟩
              · rw [hrecl, mbind_err] at h
                exact Except.noConfusion h
              · rw [hrecl, mbind_ok] at h
                cases b
                · have hout_l : out_l = route0 ++ [⟨rv, Dir.RIGHT⟩] :=
                    ih left target (route0 ++ [⟨rv, Dir.RIGHT⟩]) out_l hrecl
                  rw [if_fst_false, hout_l] at h
                  simp only [snd_pair] at h
                  rw [show (route0 ++ [(⟨rv, Dir.RIGHT⟩ : ProofElement)]).length - 1
                      = route0.length from by simp, eraseIdx_concat] at h
                  rcases hlv : tree[left]? with _ | lv
                  · simp [getSlot, hlv, mbind_err] at h
                  · simp only [getSlot, hlv, mbind_ok] at h
                    rcases hrecr : create_proof_route tree fuel right target
                        (route0 ++ [⟨lv, Dir.LEFT⟩]) with e2 | ⟨b2, out_r⟩
                    · rw [hrecr, mbind_err] at h
                      exact Except.noConfusion h
                    · rw [hrecr, mbind_ok] at h
                      cases b2
                      · have hout_r : out_r = route0 ++ [⟨lv, Dir.LEFT⟩] :=
                          ih right target (route0 ++ [⟨lv, Dir.LEFT⟩]) out_r hrecr
                        rw [if_fst_false, hout_r] at h
                        simp only [snd_pair] at h
                        rw [show (route0 ++ [(⟨lv, Dir.LEFT⟩ : ProofElement)]).length
                            - 1 = route0.length from by simp, eraseIdx_concat] at h
                        simp at h
                        exact h.symm
                      · rw [if_fst_true] at h
                        simp at h
                · rw [if_fst_true] at h
                  simp at h

/-- A successful search starting at `idx` extends the given route by a
chain whose bottom-up rebuild is the value stored at `idx`, and every
recorded sibling hash is a slot of the tree. -/
theorem route_success (c : Ctx) (tree : Slots)
    (hnodes : ∀ p, p < tree.length → p % 2 = 1 → INVnode c tree p)
    (hw : ∀ v ∈ tree, v.length = c.N) :
    ∀ fuel idx target route0 out,
      create_proof_route tree fuel idx target route0 = .ok (true, out) →
      ∃ ext v, out = route0 ++ ext ∧ tree[idx]? = some v ∧
        chainFold c target ext.reverse = v ∧
        ∀ e ∈ ext, e.hash.length = c.N := by
  intro fuel
  induction fuel with
  | zero =>
    intro idx target route0 out h
    simp [create_proof_route] at h
  | succ fuel ih =>
    intro idx target route0 out h
    rcases hslot : tree[idx]? with _ | v
    · simp [create_proof_route, getSlot, hslot, mbind_err] at h
    · simp only [create_proof_route, getSlot, hslot, mbind_ok] at h
      by_cases heq : v = target
      · rw [if_pos heq] at h
        have hout : route0 = out := by simpa using h
        refine ⟨[], v, ?_, rfl, ?_, by simp⟩
        · rw [List.append_nil]
          exact hout.symm
        · show chainFold c target [] = v
          exact heq.symm
      · rw [if_neg heq] at h
        rcases hl : pbt_left_child idx with _ | left
        · rcases hr0 : lpbt_right_child idx tree.length with _ | right
          · simp [hl, hr0] at h
          · simp [hl, hr0] at h
        · rcases hr0 : lpbt_right_child idx tree.length with _ | right
          · simp [hl, hr0] at h
          · simp only [hl, hr0] at h
            rcases hrv : tree[right]? with _ | rv
            · simp [getSlot, hrv, mbind_err] at h
            · simp only [getSlot, hrv, mbind_ok] at h
              have hidxlt : idx < tree.length := getElem?_some_lt tree idx v hslot
              have hodd : idx % 2 = 1 := pbt_left_child_odd idx left hl
              obtain ⟨l', r', lv', rv', hl', hr', hlv', hrv', hv'⟩ :=
                hnodes idx hidxlt hodd
              have eL : l' = left := Option.some_inj.mp (hl'.symm.trans hl)
              have eR : r' = right := Option.some_inj.mp (hr'.symm.trans hr0)
              rw [eL] at hlv'
              rw [eR] at hrv'
              have eRv : rv' = rv := Option.some_inj.mp (hrv'.symm.trans hrv)
              rw [eRv] at hv'
              have hveq : v = tagV c NODE_TAG (concatV c lv' rv) :=
                Option.some_inj.mp (hslot.symm.trans hv')
              rcases hrecl : create_proof_route tree fuel left target
                  (route0 ++ [⟨rv, Dir.RIGHT⟩]) with e | ⟨b, out_l⟩
              · rw [hrecl, mbind_err] at h
                exact Except.noConfusion h
              · rw [hrecl, mbind_ok] at h
                cases b
                · have hout_l : out_l = route0 ++ [⟨rv, Dir.RIGHT⟩] :=
                    route_fail_restores tree fuel left target
                      (route0 ++ [⟨rv, Dir.RIGHT⟩]) out_l hrecl
                  rw [if_fst_false, hout_l] at h
                  simp only [snd_pair] at h
                  rw [show (route0 ++ [(⟨rv, Dir.RIGHT⟩ : ProofElement)]).length - 1
                      = route0.length from by simp, eraseIdx_concat] at h
                  simp only [getSlot, hlv', mbind_ok] at h
                  rcases hrecr : create_proof_route tree fuel right target
                      (route0 ++ [⟨lv', Dir.LEFT⟩]) with e2 | ⟨b2, out_r⟩
                  · rw [hrecr, mbind_err] at h
                    exact Except.noConfusion h
                  · rw [hrecr, mbind_ok] at h
                    cases b2
                    · rw [if_fst_false] at h
                      simp at h
                    · rw [if_fst_true] at h
                      simp only [snd_pair] at h
                      have hout : out_r = out := by simpa using h
                      obtain ⟨ext_r, vr, hext, hslot_r, hchain, hwid⟩ :=
                        ih right target (route0 ++ [⟨lv', Dir.LEFT⟩]) out_r hrecr
                      have evr : vr = rv := Option.some_inj.mp (hslot_r.symm.trans hrv)
                      refine ⟨⟨lv', Dir.LEFT⟩ :: ext_r, v, ?_, rfl, ?_, ?_⟩
                      · rw [← hout, hext]
                        simp
                      · rw [List.reverse_cons, chainFold_append, hchain, evr,
                          chainFold_left]
                        exact hveq.symm
                      · intro e he
                        rcases List.mem_cons.mp he with he1 | he2
                        · rw [he1]
                          exact hw lv' (mem_of_getElem_some tree left lv' hlv')
                        · exact hwid e he2
                · rw [if_fst_true] at h
                  simp only [snd_pair] at h
                  have hout : out_l = out := by simpa using h
                  obtain ⟨ext_l, vl, hext, hslot_l, hchain, hwid⟩ :=
                    ih left target (route0 ++ [⟨rv, Dir.RIGHT⟩]) out_l hrecl
                  have evl : vl = lv' := Option.some_inj.mp (hslot_l.symm.trans hlv')
                  refine ⟨⟨rv, Dir.RIGHT⟩ :: ext_l, v, ?_, rfl, ?_, ?_⟩
                  · rw [← hout, hext]
                    simp
                  · rw [List.reverse_cons, chainFold_append, hchain, evl,
                      chainFold_right]
                    exact hveq.symm
                  · intro e he
                    rcases List.mem_cons.mp he with he1 | he2
                    · rw [he1]
                      exact hw rv (mem_of_getElem_some tree right rv hrv)
                    · exact hwid e he2

/-! ## Regions of the left-packed sequence

`[o, o + sz)` is the span of a subtree of the flat sequence of length `t`
when `o` is aligned beyond `sz` and the region either touches the end of
the sequence or is a perfect subtree lying inside it. -/

def RegOK (t o sz : Nat) : Prop :=
  sz % 2 = 1 ∧ 1 ≤ sz ∧ (∃ w, 2 ^ w ∣ o ∧ sz < 2 ^ w) ∧
    (o + sz = t ∨ (∃ u, sz + 1 = 2 ^ u) ∧ o + sz ≤ t)

theorem RegOK_le (t o sz : Nat) (h : RegOK t o sz) : o + sz ≤ t := by
  rcases h.2.2.2 with h1 | ⟨_, h1⟩ <;> omega

theorem RegOK_top (t : Nat) (ht : t % 2 = 1) (ht1 : 1 ≤ t) : RegOK t 0 t :=
  ⟨ht, ht1, ⟨t, dvd_zero _, Nat.lt_two_pow t⟩, Or.inl (Nat.zero_add t)⟩

/-- Navigation inside a region of size at least 3: the region root's left
child is the root of the (perfect) left half, its right child is the root
of the remaining right region, and both halves are regions again. -/
theorem reg_navigate (t o sz : Nat) (hreg : RegOK t o sz) (h3 : 3 ≤ sz) :
    ∃ u, 2 ^ u ≤ sz ∧ sz < 2 ^ (u + 1) ∧ 1 ≤ u ∧
      lpbt_root sz = 2 ^ u - 1 ∧
      lpbt_root (2 ^ u - 1) = 2 ^ (u - 1) - 1 ∧
      pbt_left_child (o + lpbt_root sz) = some (o + lpbt_root (2 ^ u - 1)) ∧
      lpbt_right_child (o + lpbt_root sz) t =
        some (o + 2 ^ u + lpbt_root (sz - 2 ^ u)) ∧
      RegOK t o (2 ^ u - 1) ∧ RegOK t (o + 2 ^ u) (sz - 2 ^ u) ∧
      2 ^ u - 1 < sz ∧ sz - 2 ^ u < sz ∧ 1 ≤ sz - 2 ^ u := by
  obtain ⟨hodd, hsz1, ⟨w, hwdvd, hwlt⟩, hend⟩ := hreg
  obtain ⟨u, hu1, hu2⟩ := exists_pow_range sz hsz1
  have hu1le : 1 ≤ u := by
    by_contra hc
    have hz : u = 0 := by omega
    subst hz
    norm_num at hu2
    omega
  have e1 : (2:Nat) ^ (u + 1) = 2 * 2 ^ u := two_pow_succ u
  have e2 : (2:Nat) ^ u = 2 * 2 ^ (u - 1) := two_pow_pred u hu1le
  have e3 : (2:Nat) ^ (u - 1 + 1) = 2 ^ u := by
    rw [show u - 1 + 1 = u from by omega]
  have hpos : (0:Nat) < 2 ^ (u - 1) := Nat.two_pow_pos (u - 1)
  have hpos_u : (0:Nat) < 2 ^ u := Nat.two_pow_pos u
  have huw : u + 1 ≤ w := by
    by_contra hc
    have hle : (2:Nat) ^ w ≤ 2 ^ u := Nat.pow_le_pow_right (by omega) (by omega)
    omega
  obtain ⟨m, hm⟩ := dvd_trans (Nat.pow_dvd_pow 2 huw) hwdvd
  have hroot : lpbt_root sz = 2 ^ u - 1 := lpbt_root_eq u sz hu1 hu2
  have hRcf : o + lpbt_root sz = cf m u := by
    rw [hroot]
    unfold cf
    have hmo : o = m * 2 ^ (u + 1) := by rw [hm]; ring
    omega
  have hcfval : cf m u = o + 2 ^ u - 1 := by
    rw [← hRcf, hroot]
    omega
  have hble2 : o + sz ≤ t := by
    rcases hend with h | ⟨_, h⟩ <;> omega
  have hperf_case : o + sz = t ∨ sz = 2 ^ (u + 1) - 1 ∧ o + sz ≤ t := by
    rcases hend with h | ⟨⟨v, hperf⟩, hble⟩
    · exact Or.inl h
    · right
      have h1 : (2:Nat) ^ u < 2 ^ v := by omega
      have h2 : (2:Nat) ^ v ≤ 2 ^ (u + 1) := by omega
      have l1 : u < v := (Nat.pow_lt_pow_iff_right (by omega)).mp h1
      have l2 : v ≤ u + 1 := (Nat.pow_le_pow_iff_right (by omega)).mp h2
      have hv : v = u + 1 := by omega
      subst hv
      exact ⟨by omega, hble⟩
  have hrootL : lpbt_root (2 ^ u - 1) = 2 ^ (u - 1) - 1 := by
    refine lpbt_root_eq (u - 1) (2 ^ u - 1) (by omega) ?_
    rw [e3]
    omega
  have hlc : pbt_left_child (o + lpbt_root sz) = some (o + lpbt_root (2 ^ u - 1)) := by
    rw [hRcf, pbt_left_child_cf m u hu1le]
    congr 1
    rw [hrootL]
    unfold cf
    have hprod : 2 * m * 2 ^ (u - 1 + 1) = o := by
      rw [e3, hm, e1]
      ring
    omega
  have hsr_odd : (sz - 2 ^ u) % 2 = 1 := by omega
  have hsr_pos : 1 ≤ sz - 2 ^ u := by omega
  have hsr_lt : sz - 2 ^ u < 2 ^ u := by omega
  have hrc : lpbt_right_child (o + lpbt_root sz) t =
      some (o + 2 ^ u + lpbt_root (sz - 2 ^ u)) := by
    have hval : cf (2 * m + 1) (u - 1) = o + 2 ^ u + 2 ^ (u - 1) - 1 := by
      unfold cf
      have hprod : (2 * m + 1) * 2 ^ (u - 1 + 1) = o + 2 ^ u := by
        rw [e3, hm, e1]
        ring
      omega
    rw [hRcf]
    unfold lpbt_right_child
    rw [if_pos (cf_and_one m u hu1le), pbt_right_child_cf m u hu1le, hval]
    show some (if o + 2 ^ u + 2 ^ (u - 1) - 1 < t then o + 2 ^ u + 2 ^ (u - 1) - 1
        else cf m u + 1 + lpbt_root (t - cf m u - 1)) =
      some (o + 2 ^ u + lpbt_root (sz - 2 ^ u))
    congr 1
    rcases hperf_case with hte | ⟨hszeq, hble⟩
    · by_cases hge : 2 ^ (u - 1) ≤ sz - 2 ^ u
      · rw [if_pos (by omega)]
        rw [lpbt_root_eq (u - 1) (sz - 2 ^ u) hge (by rw [e3]; omega)]
        omega
      · rw [if_neg (by omega), hcfval,
          show t - (o + 2 ^ u - 1) - 1 = sz - 2 ^ u from by omega]
        omega
    · rw [if_pos (by omega)]
      rw [lpbt_root_eq (u - 1) (sz - 2 ^ u) (by omega) (by rw [e3]; omega)]
      omega
  have hregL : RegOK t o (2 ^ u - 1) := by
    refine ⟨by omega, by omega, ⟨u, ?_, by omega⟩, Or.inr ⟨⟨u, by omega⟩, by omega⟩⟩
    exact dvd_trans (Nat.pow_dvd_pow 2 (by omega)) hwdvd
  have hregR : RegOK t (o + 2 ^ u) (sz - 2 ^ u) := by
    refine ⟨hsr_odd, hsr_pos, ⟨u, ?_, hsr_lt⟩, ?_⟩
    · exact Nat.dvd_add (dvd_trans (Nat.pow_dvd_pow 2 (by omega)) hwdvd) dvd_rfl
    · rcases hperf_case with hte | ⟨hszeq, hble⟩
      · exact Or.inl (by omega)
      · exact Or.inr ⟨⟨u, by omega⟩, by omega⟩
  exact ⟨u, hu1, hu2, hu1le, hroot, hrootL, hlc, hrc, hregL, hregR,
    by omega, by omega, hsr_pos⟩

/-- On any aligned region the search never errors with enough fuel. -/
theorem route_no_error (tree : Slots) (t : Nat) (hlen : tree.length = t) :
    ∀ sz o target route0 e fuel, RegOK t o sz → sz ≤ fuel →
      create_proof_route tree fuel (o + lpbt_root sz) target route0 =
        .error e → False := by
  intro sz
  induction sz using Nat.strong_induction_on with
  | _ sz ih =>
    intro o target route0 e fuel hreg hfuel hres
    have hble : o + sz ≤ t := RegOK_le t o sz hreg
    have hsz1 : 1 ≤ sz := hreg.2.1
    obtain ⟨f, rfl⟩ : ∃ f, fuel = f + 1 := ⟨fuel - 1, by omega⟩
    by_cases hsz3 : 3 ≤ sz
    · obtain ⟨u, hu1, hu2, hu1le, hroot, hrootL, hlc, hrc, hregL, hregR,
        hltL, hltR, hposR⟩ := reg_navigate t o sz hreg hsz3
      have hmono : (2:Nat) ^ (u - 1) ≤ 2 ^ u :=
        Nat.pow_le_pow_right (by omega) (by omega)
      have hpu : (0:Nat) < 2 ^ u := Nat.two_pow_pos u
      have hRlt : o + lpbt_root sz < t := by
        have := lpbt_root_lt sz hsz1
        omega
      obtain ⟨v, hv, _⟩ := slot_exists tree (o + lpbt_root sz) (by omega)
      simp only [create_proof_route, getSlot_ok tree _ v hv, mbind_ok] at hres
      by_cases heq : v = target
      · rw [if_pos heq] at hres
        exact Except.noConfusion hres
      · rw [if_neg heq, hlen] at hres
        simp only [hlc, hrc] at hres
        have hRt_lt : o + 2 ^ u + lpbt_root (sz - 2 ^ u) < t := by
          have := lpbt_root_lt (sz - 2 ^ u) hposR
          omega
        obtain ⟨rv, hrv, _⟩ :=
          slot_exists tree (o + 2 ^ u + lpbt_root (sz - 2 ^ u)) (by omega)
        simp only [getSlot_ok tree _ rv hrv, mbind_ok] at hres
        rcases hrecl : create_proof_route tree f (o + lpbt_root (2 ^ u - 1))
            target (route0 ++ [⟨rv, Dir.RIGHT⟩]) with e1 | ⟨b, out_l⟩
        · exact ih (2 ^ u - 1) hltL o target (route0 ++ [⟨rv, Dir.RIGHT⟩]) e1 f
            hregL (by omega) hrecl
        · rw [hrecl, mbind_ok] at hres
          cases b
          · have hout_l : out_l = route0 ++ [⟨rv, Dir.RIGHT⟩] :=
              route_fail_restores tree f _ target _ out_l hrecl
            rw [if_fst_false, hout_l] at hres
            simp only [snd_pair] at hres
            rw [show (route0 ++ [(⟨rv, Dir.RIGHT⟩ : ProofElement)]).length - 1
                = route0.length from by simp, eraseIdx_concat] at hres
            have hL_lt : o + lpbt_root (2 ^ u - 1) < t := by
              rw [hrootL]
              omega
            obtain ⟨lv, hlv, _⟩ :=
              slot_exists tree (o + lpbt_root (2 ^ u - 1)) (by omega)
            simp only [getSlot_ok tree _ lv hlv, mbind_ok] at hres
            rcases hrecr : create_proof_route tree f
                (o + 2 ^ u + lpbt_root (sz - 2 ^ u)) target
                (route0 ++ [⟨lv, Dir.LEFT⟩]) with e2 | ⟨b2, out_r⟩
            · exact ih (sz - 2 ^ u) hltR (o + 2 ^ u) target
                (route0 ++ [⟨lv, Dir.LEFT⟩]) e2 f hregR (by omega) hrecr
            · rw [hrecr, mbind_ok] at hres
              cases b2
              · rw [if_fst_false] at hres
                exact Except.noConfusion hres
              · rw [if_fst_true] at hres
                exact Except.noConfusion hres
          · rw [if_fst_true] at hres
            exact Except.noConfusion hres
    · have hsz_eq : sz = 1 := by
        have := hreg.1
        omega
      subst hsz_eq
      obtain ⟨w, hwdvd, hwlt⟩ := hreg.2.2.1
      have hw1 : 1 ≤ w := by
        by_contra hc
        have hz : w = 0 := by omega
        subst hz
        norm_num at hwlt
      have ho2 : o % 2 = 0 := by
        obtain ⟨k, hk⟩ :=
          dvd_trans (Nat.pow_dvd_pow 2 hw1 : (2:Nat) ^ 1 ∣ 2 ^ w) hwdvd
        rw [pow_one] at hk
        omega
      have hidx : o + lpbt_root 1 = o := by
        have h0 : lpbt_root 1 = 0 := by decide
        omega
      rw [hidx] at hres
      obtain ⟨v, hv, _⟩ := slot_exists tree o (by omega)
      simp only [create_proof_route, getSlot_ok tree o v hv, mbind_ok] at hres
      by_cases heq : v = target
      · rw [if_pos heq] at hres
        exact Except.noConfusion hres
      · rw [if_neg heq, pbt_left_child_even o ho2] at hres
        exact Except.noConfusion hres

/-- On any aligned region the search is total: with enough fuel it returns
a boolean outcome, never an error. -/
theorem route_total (tree : Slots) (t : Nat) (hlen : tree.length = t)
    (sz o : Nat) (target : List Nat) (route0 : List ProofElement) (fuel : Nat)
    (hreg : RegOK t o sz) (hfuel : sz ≤ fuel) :
    ∃ b out, create_proof_route tree fuel (o + lpbt_root sz) target route0 =
      .ok (b, out) := by
  rcases hres : create_proof_route tree fuel (o + lpbt_root sz) target route0
    with e | ⟨b, out⟩
  · exact (route_no_error tree t hlen sz o target route0 e fuel hreg hfuel
      hres).elim
  · exact ⟨b, out, rfl⟩

/-- If the searched-for value sits anywhere inside an aligned region, the
search from the region root cannot fail. -/
theorem route_finds (tree : Slots) (t : Nat) (hlen : tree.length = t) :
    ∀ sz o x target route0 out fuel, RegOK t o sz → sz ≤ fuel →
      o ≤ x → x < o + sz → tree[x]? = some target →
      create_proof_route tree fuel (o + lpbt_root sz) target route0 =
        .ok (false, out) → False := by
  intro sz
  induction sz using Nat.strong_induction_on with
  | _ sz ih =>
    intro o x target route0 out fuel hreg hfuel hx1 hx2 hx hres
    have hble : o + sz ≤ t := RegOK_le t o sz hreg
    have hsz1 : 1 ≤ sz := hreg.2.1
    obtain ⟨f, rfl⟩ : ∃ f, fuel = f + 1 := ⟨fuel - 1, by omega⟩
    by_cases hsz3 : 3 ≤ sz
    · obtain ⟨u, hu1, hu2, hu1le, hroot, hrootL, hlc, hrc, hregL, hregR,
        hltL, hltR, hposR⟩ := reg_navigate t o sz hreg hsz3
      have hmono : (2:Nat) ^ (u - 1) ≤ 2 ^ u :=
        Nat.pow_le_pow_right (by omega) (by omega)
      have hpu : (0:Nat) < 2 ^ u := Nat.two_pow_pos u
      have hRlt : o + lpbt_root sz < t := by
        have := lpbt_root_lt sz hsz1
        omega
      obtain ⟨v, hv, _⟩ := slot_exists tree (o + lpbt_root sz) (by omega)
      simp only [create_proof_route, getSlot_ok tree _ v hv, mbind_ok] at hres
      by_cases heq : v = target
      · rw [if_pos heq] at hres
        simp at hres
      · rw [if_neg heq, hlen] at hres
        simp only [hlc, hrc] at hres
        have hRt_lt : o + 2 ^ u + lpbt_root (sz - 2 ^ u) < t := by
          have := lpbt_root_lt (sz - 2 ^ u) hposR
          omega
        obtain ⟨rv, hrv, _⟩ :=
          slot_exists tree (o + 2 ^ u + lpbt_root (sz - 2 ^ u)) (by omega)
        simp only [getSlot_ok tree _ rv hrv, mbind_ok] at hres
        rcases hrecl : create_proof_route tree f (o + lpbt_root (2 ^ u - 1))
            target (route0 ++ [⟨rv, Dir.RIGHT⟩]) with e1 | ⟨b, out_l⟩
        · rw [hrecl, mbind_err] at hres
          exact Except.noConfusion hres
        · rw [hrecl, mbind_ok] at hres
          cases b
          · -- the left branch failed
            by_cases hxl : x < o + (2 ^ u - 1)
            · exact ih (2 ^ u - 1) hltL o x target (route0 ++ [⟨rv, Dir.RIGHT⟩])
                out_l f hregL (by omega) hx1 (by omega) hx hrecl
            · by_cases hxr : x = o + (2 ^ u - 1)
              · refine heq (Option.some_inj.mp (hv.symm.trans ?_))
                rw [show o + lpbt_root sz = x from by rw [hroot]; omega]
                exact hx
              · -- x lies in the right region
                have hxright : o + 2 ^ u ≤ x := by omega
                have hout_l : out_l = route0 ++ [⟨rv, Dir.RIGHT⟩] :=
                  route_fail_restores tree f _ target _ out_l hrecl
                rw [if_fst_false, hout_l] at hres
                simp only [snd_pair] at hres
                rw [show (route0 ++ [(⟨rv, Dir.RIGHT⟩ : ProofElement)]).length - 1
                    = route0.length from by simp, eraseIdx_concat] at hres
                have hL_lt : o + lpbt_root (2 ^ u - 1) < t := by
                  rw [hrootL]
                  omega
                obtain ⟨lv, hlv, _⟩ :=
                  slot_exists tree (o + lpbt_root (2 ^ u - 1)) (by omega)
                simp only [getSlot_ok tree _ lv hlv, mbind_ok] at hres
                rcases hrecr : create_proof_route tree f
                    (o + 2 ^ u + lpbt_root (sz - 2 ^ u)) target
                    (route0 ++ [⟨lv, Dir.LEFT⟩]) with e2 | ⟨b2, out_r⟩
                · rw [hrecr, mbind_err] at hres
                  exact Except.noConfusion hres
                · rw [hrecr, mbind_ok] at hres
                  cases b2
                  · exact ih (sz - 2 ^ u) hltR (o + 2 ^ u) x target
                      (route0 ++ [⟨lv, Dir.LEFT⟩]) out_r f hregR (by omega)
                      hxright (by omega) hx hrecr
                  · rw [if_fst_true] at hres
                    simp at hres
          · rw [if_fst_true] at hres
            simp at hres
    · have hsz_eq : sz = 1 := by
        have := hreg.1
        omega
      subst hsz_eq
      have hxo : x = o := by omega
      subst hxo
      have hidx : x + lpbt_root 1 = x := by
        have h0 : lpbt_root 1 = 0 := by decide
        omega
      rw [hidx] at hres
      simp only [create_proof_route, getSlot_ok tree x target hx, mbind_ok]
        at hres
      simp at hres

/-- Completeness: if the searched-for value sits anywhere inside an aligned
region, the search from the region root finds it. -/
theorem route_complete (tree : Slots) (t : Nat) (hlen : tree.length = t)
    (sz o x : Nat) (target : List Nat) (route0 : List ProofElement)
    (fuel : Nat) (hreg : RegOK t o sz) (hfuel : sz ≤ fuel) (hx1 : o ≤ x)
    (hx2 : x < o + sz) (hx : tree[x]? = some target) :
    ∃ out, create_proof_route tree fuel (o + lpbt_root sz) target route0 =
      .ok (true, out) := by
  obtain ⟨b, out, hres⟩ :=
    route_total tree t hlen sz o target route0 fuel hreg hfuel
  cases b
  · exact (route_finds tree t hlen sz o x target route0 out fuel hreg hfuel
      hx1 hx2 hx hres).elim
  · exact ⟨out, hres⟩


/-! ## The verifier fold as the specification words it -/

/-- The verifier as described by the specification: start from the tagged
leaf hash of `data`, fold over the proof combining with each sibling on the
recorded side, and compare byte-wise with `expectedRoot`.  (This definition
follows the specification's wording; `verify_proof` above follows the
code.) -/
def verifySpecFold (c : Ctx) (data : List Nat) (proof : List ProofElement)
    (expectedRoot : List Nat) : Bool :=
  decide ((proof.foldl (fun acc e =>
    match e.direction with
    | Dir.LEFT => tagV c NODE_TAG (concatV c e.hash acc)
    | Dir.RIGHT => tagV c NODE_TAG (concatV c acc e.hash))
    (tagV c LEAF_TAG data)) = expectedRoot)

theorem verify_foldlM (c : Ctx) (hc : GoodCtx c) :
    ∀ (proof : List ProofElement) (acc : List Nat), acc.length = c.N →
      (∀ e ∈ proof, e.hash.length = c.N) →
      List.foldlM (fun acc e => do
        let inner ← match e.direction with
          | Dir.LEFT => concat_hash c e.hash acc
          | Dir.RIGHT => concat_hash c acc e.hash
        tag_hash c NODE_TAG inner) acc proof
      = .ok (proof.foldl (fun acc e =>
          match e.direction with
          | Dir.LEFT => tagV c NODE_TAG (concatV c e.hash acc)
          | Dir.RIGHT => tagV c NODE_TAG (concatV c acc e.hash)) acc) := by
  intro proof
  induction proof with
  | nil => intro acc _ _; rfl
  | cons e es ih =>
    intro acc hacc hes
    have he : e.hash.length = c.N := hes e (List.mem_cons_self e es)
    have hes2 : ∀ x ∈ es, x.hash.length = c.N :=
      fun x hx => hes x (List.mem_cons_of_mem e hx)
    rcases e with ⟨h, dir⟩
    cases dir
    case LEFT =>
      simp only [List.foldlM_cons, List.foldl_cons,
        concat_hash_ok c hc h acc he hacc, tag_hash_ok c hc, mbind_ok]
      have ih2 := ih (tagV c NODE_TAG (concatV c h acc)) (tagV_length c hc _ _) hes2
      simp only [tag_hash_ok c hc, mbind_ok] at ih2
      exact ih2
    case RIGHT =>
      simp only [List.foldlM_cons, List.foldl_cons,
        concat_hash_ok c hc acc h hacc he, tag_hash_ok c hc, mbind_ok]
      have ih2 := ih (tagV c NODE_TAG (concatV c acc h)) (tagV_length c hc _ _) hes2
      simp only [tag_hash_ok c hc, mbind_ok] at ih2
      exact ih2

/-! ## Concrete configurations used in closed instances -/

/-- A small executable digest with `N = 1`, `ND = 2`. -/
def cW : Ctx :=
  ⟨fun l => [l.foldl (fun a b => (a * 31 + b + 7) % 251) 3], 1, 2⟩

theorem cW_good : GoodCtx cW :=
  ⟨rfl, fun _ => Nat.le_refl 1⟩

/-- A stand-in for a 32-byte digest configured with slot width `N = 33`. -/
def cBad : Ctx := ⟨fun _ => List.replicate 32 0, 33, 66⟩

/-! ## The claims -/

/-- C2: the claim says construction rejects every configuration with
`ND ≠ 2N` or with `N` above the digest's output byte length `D`.  The
code's assertions compare the byte counts `N` and `ND` against the bit
counts `8·D` and `16·D`, so for a 32-byte digest the invalid width
`N = 33 > 32 = D` passes both checks and construction succeeds; the very
first digest truncation `out[..N]` then fails on a 32-byte output. -/
theorem c2_construction_accepts_oversized_width :
    new_checks 32 33 66 = true ∧ 32 < 33 ∧
      hash cBad [] = .error .panicked :=
  ⟨by decide, by decide, rfl⟩

/-- C3: the claim says `createProof(X)` is total on every reachable state,
returning absent for never-appended `X` — including on the empty tree.  On
the empty tree the search immediately reads `tree[lpbt_root 0] = tree[0]`,
which fails instead of returning absent. -/
theorem c3_create_proof_fails_on_empty_tree :
    create_proof cW [] [0] = .error .panicked := rfl

/-- C4: `verify_proof` equals the specification's fold: start from the
tagged leaf hash, combine with each sibling on its recorded side in order,
and return byte-wise equality with the expected root; it is deterministic
and, given well-sized sibling hashes, never fails — a mismatch yields
`false`, not an error. -/
theorem c4_verify_proof_is_spec_fold (c : Ctx) (hc : GoodCtx c)
    (data : List Nat) (proof : List ProofElement) (to_match : List Nat)
    (hlen : ∀ e ∈ proof, e.hash.length = c.N) :
    verify_proof c data proof to_match =
      .ok (verifySpecFold c data proof to_match) := by
  unfold verify_proof verifySpecFold
  simp only [tag_hash_ok c hc, mbind_ok]
  have hfold := verify_foldlM c hc proof (tagV c LEAF_TAG data)
    (tagV_length c hc LEAF_TAG data) hlen
  simp only [tag_hash_ok c hc, mbind_ok] at hfold
  rw [hfold]
  simp only [mbind_ok]

theorem c4_verify_proof_is_spec_fold_witness :
    GoodCtx cW ∧
      verify_proof cW [0] [⟨[5], Dir.LEFT⟩] [7] =
        .ok (verifySpecFold cW [0] [⟨[5], Dir.LEFT⟩] [7]) :=
  ⟨cW_good, c4_verify_proof_is_spec_fold cW cW_good [0] [⟨[5], Dir.LEFT⟩] [7]
    (fun e he => by cases List.mem_singleton.mp he; rfl)⟩

/-- C5: after `k ≥ 1` successful appends to a fresh tree the flat sequence
has exactly `2k − 1` slots, the `i`-th payload's tagged leaf hash sits at
the even position `2i`, and every odd position holds an internal slot equal
to the tagged hash of its two children. -/
theorem c5_shape_after_appends (c : Ctx) (hc : GoodCtx c)
    (ps : List (List Nat)) (_hk : 1 ≤ ps.length) :
    ∃ tree, addAll c [] ps = .ok tree ∧
      tree.length = 2 * ps.length - 1 ∧
      (∀ i pi, ps[i]? = some pi → tree[2 * i]? = some (tagV c LEAF_TAG pi)) ∧
      (∀ p, p < tree.length → p % 2 = 1 → ∃ l r lv rv,
        pbt_left_child p = some l ∧ lpbt_right_child p tree.length = some r ∧
        tree[l]? = some lv ∧ tree[r]? = some rv ∧
        tree[p]? = some (tagV c NODE_TAG (concatV c lv rv))) := by
  obtain ⟨tree, hrun, hinv⟩ := addAll_inv c hc ps [] [] (Inv_nil c)
  exact ⟨tree, hrun, hinv.len_eq, hinv.leaves, hinv.nodes⟩

theorem c5_shape_after_appends_witness :
    GoodCtx cW ∧ 1 ≤ ([[0], [1], [2]] : List (List Nat)).length ∧
      ∃ tree, addAll cW [] [[0], [1], [2]] = .ok tree ∧
        tree.length = 2 * ([[0], [1], [2]] : List (List Nat)).length - 1 ∧
        (∀ i pi, ([[0], [1], [2]] : List (List Nat))[i]? = some pi →
          tree[2 * i]? = some (tagV cW LEAF_TAG pi)) ∧
        (∀ p, p < tree.length → p % 2 = 1 → ∃ l r lv rv,
          pbt_left_child p = some l ∧ lpbt_right_child p tree.length = some r ∧
          tree[l]? = some lv ∧ tree[r]? = some rv ∧
          tree[p]? = some (tagV cW NODE_TAG (concatV cW lv rv))) :=
  ⟨cW_good, by decide,
    c5_shape_after_appends cW cW_good [[0], [1], [2]] (by decide)⟩

/-- C6: on every state reachable by appends from the empty tree, a further
append succeeds outright — the structural-error branches of `lpbt_set`
(leaf position out of bounds, no parent found, unresolved child pair) and
the fuel bound are never hit. -/
theorem c6_append_total_on_reachable (c : Ctx) (hc : GoodCtx c)
    (ps : List (List Nat)) (x : List Nat) :
    ∃ tree tree2, addAll c [] ps = .ok tree ∧ add c tree x = .ok tree2 := by
  obtain ⟨tree, hrun, hinv⟩ := addAll_inv c hc ps [] [] (Inv_nil c)
  obtain ⟨tree2, hadd, _⟩ := add_inv c hc ps tree hinv x
  exact ⟨tree, tree2, hrun, hadd⟩

theorem c6_append_total_on_reachable_witness :
    GoodCtx cW ∧ ∃ tree tree2,
      addAll cW [] [[0], [1]] = .ok tree ∧ add cW tree [2] = .ok tree2 :=
  ⟨cW_good, c6_append_total_on_reachable cW cW_good [[0], [1]] [2]⟩

/-- C7: `root` is absent exactly on the empty tree; on any tree it reads
the slot at `lpbt_root size`; after one append of `L` into a fresh tree it
equals the tagged leaf hash of `L`. -/
theorem c7_root_behaviour (c : Ctx) (hc : GoodCtx c) (L : List Nat) :
    (∀ tree : Slots, root tree = none ↔ tree = []) ∧
    (∀ tree : Slots, root tree = tree[lpbt_root tree.length]?) ∧
    (∃ tree, add c [] L = .ok tree ∧ root tree = some (tagV c LEAF_TAG L)) := by
  have hroot : root [tagV c LEAF_TAG L] = some (tagV c LEAF_TAG L) := by
    have h1 : lpbt_root 1 = 0 := by decide
    show ([tagV c LEAF_TAG L] : Slots)[lpbt_root 1]? = some (tagV c LEAF_TAG L)
    rw [h1]
    simp
  refine ⟨root_none_iff, fun tree => rfl, ⟨[tagV c LEAF_TAG L], ?_, hroot⟩⟩
  unfold add
  rw [if_pos (show ([] : Slots).isEmpty = true from rfl), tag_hash_ok c hc,
    mbind_ok]
  rfl

theorem c7_root_behaviour_witness :
    GoodCtx cW ∧ ((∀ tree : Slots, root tree = none ↔ tree = []) ∧
      (∀ tree : Slots, root tree = tree[lpbt_root tree.length]?) ∧
      (∃ tree, add cW [] [9] = .ok tree ∧
        root tree = some (tagV cW LEAF_TAG [9]))) :=
  ⟨cW_good, c7_root_behaviour cW cW_good [9]⟩

/-- C8: for any `N ≥ 1` the tag blocks feeding the outer hash differ for
the two tag constants, so leaf-tagged and node-tagged hashes are computed
over distinct input buffers. -/
theorem c8_domain_separation (c : Ctx) (hN : 1 ≤ c.N) (d1 d2 : List Nat) :
    tagV c LEAF_TAG d1 = hashV c (List.replicate c.N LEAF_TAG ++ hashV c d1) ∧
    tagV c NODE_TAG d2 = hashV c (List.replicate c.N NODE_TAG ++ hashV c d2) ∧
    List.replicate c.N LEAF_TAG ≠ List.replicate c.N NODE_TAG ∧
    List.replicate c.N LEAF_TAG ++ hashV c d1 ≠
      List.replicate c.N NODE_TAG ++ hashV c d2 := by
  have hrep : ∀ a : Nat,
      List.replicate c.N a = a :: List.replicate (c.N - 1) a := by
    intro a
    conv_lhs => rw [show c.N = (c.N - 1) + 1 from by omega]
    rfl
  refine ⟨rfl, rfl, ?_, ?_⟩
  · intro h
    rw [hrep, hrep] at h
    injection h with h1 _
    exact absurd h1 (by decide)
  · intro h
    rw [hrep, hrep] at h
    simp only [List.cons_append] at h
    injection h with h1 _
    exact absurd h1 (by decide)

theorem c8_domain_separation_witness :
    1 ≤ cW.N ∧
      (tagV cW LEAF_TAG [4] =
        hashV cW (List.replicate cW.N LEAF_TAG ++ hashV cW [4]) ∧
      tagV cW NODE_TAG [6] =
        hashV cW (List.replicate cW.N NODE_TAG ++ hashV cW [6]) ∧
      List.replicate cW.N LEAF_TAG ≠ List.replicate cW.N NODE_TAG ∧
      List.replicate cW.N LEAF_TAG ++ hashV cW [4] ≠
        List.replicate cW.N NODE_TAG ++ hashV cW [6]) :=
  ⟨Nat.le_refl 1, c8_domain_separation cW (Nat.le_refl 1) [4] [6]⟩

/-- C9: under a well-formed configuration (`N ≤ D` and `ND = 2N`), every
slot of every tree reachable by appends has length exactly `N`, so the
fixed-width copies never receive a mismatched length. -/
theorem c9_uniform_slot_width (c : Ctx) (hc : GoodCtx c)
    (ps : List (List Nat)) :
    ∃ tree, addAll c [] ps = .ok tree ∧ ∀ v ∈ tree, v.length = c.N := by
  obtain ⟨tree, hrun, hinv⟩ := addAll_inv c hc ps [] [] (Inv_nil c)
  exact ⟨tree, hrun, hinv.widths⟩

theorem c9_uniform_slot_width_witness :
    GoodCtx cW ∧ ∃ tree, addAll cW [] [[0], [1], [2], [3]] = .ok tree ∧
      ∀ v ∈ tree, v.length = cW.N :=
  ⟨cW_good, c9_uniform_slot_width cW cW_good [[0], [1], [2], [3]]⟩

/-- C10: at every odd position both perfect-tree children exist, and the
parent function inverts each child function there. -/
theorem c10_parent_inverts_children (n : Nat) (hodd : n % 2 = 1) :
    ∃ l r, pbt_left_child n = some l ∧ pbt_right_child n = some r ∧
      pbt_parent l = n ∧ pbt_parent r = n := by
  obtain ⟨m, j, hj, hjt, hn⟩ := odd_decomp n hodd
  subst hn
  refine ⟨cf (2 * m) (j - 1), cf (2 * m + 1) (j - 1),
    pbt_left_child_cf m j hj, pbt_right_child_cf m j hj, ?_, ?_⟩
  · rw [pbt_parent_cf, show 2 * m / 2 = m from by omega,
      show j - 1 + 1 = j from by omega]
  · rw [pbt_parent_cf, show (2 * m + 1) / 2 = m from by omega,
      show j - 1 + 1 = j from by omega]

/-- C1: for every non-empty sequence of payloads appended in order to a
fresh tree and every payload `L` of the sequence, `create_proof L` returns
a present proof and `verify_proof L proof (root())` returns `true`.  (No
distinctness hypothesis is needed: the statement holds for arbitrary
payload sequences, in particular for distinct ones.) -/
theorem c1_create_verify_roundtrip (c : Ctx) (hc : GoodCtx c)
    (ps : List (List Nat)) (hne : ps ≠ []) (L : List Nat) (hL : L ∈ ps) :
    ∃ tree proof rootv,
      addAll c [] ps = .ok tree ∧
      create_proof c tree L = .ok (some proof) ∧
      root tree = some rootv ∧
      verify_proof c L proof rootv = .ok true := by
  obtain ⟨tree, hrun, hinv⟩ := addAll_inv c hc ps [] [] (Inv_nil c)
  have hlen : tree.length = 2 * ps.length - 1 := by simpa using hinv.len_eq
  have hk : 1 ≤ ps.length := by
    rcases ps with _ | ⟨a, ps'⟩
    · exact absurd rfl hne
    · simp
  have ht1 : 1 ≤ tree.length := by omega
  have htodd : tree.length % 2 = 1 := by omega
  obtain ⟨i, hi⟩ := List.mem_iff_getElem?.mp hL
  have hibound : i < ps.length := getElem?_some_lt ps i L hi
  have htarget : tree[2 * i]? = some (tagV c LEAF_TAG L) := hinv.leaves i L hi
  obtain ⟨out, hsearch⟩ := route_complete tree tree.length rfl tree.length 0
    (2 * i) (tagV c LEAF_TAG L) [] (tree.length + 1)
    (RegOK_top tree.length htodd ht1) (by omega) (by omega) (by omega) htarget
  rw [Nat.zero_add] at hsearch
  have hcp : create_proof c tree L = .ok (some out.reverse) := by
    unfold create_proof
    rw [tag_hash_ok c hc, mbind_ok, hsearch]
    rfl
  obtain ⟨ext, v, hext, hrootslot, hchain, hwid⟩ :=
    route_success c tree hinv.nodes hinv.widths (tree.length + 1)
      (lpbt_root tree.length) (tagV c LEAF_TAG L) [] out hsearch
  have hexte : out = ext := by simpa using hext
  have hroot : root tree = some v := hrootslot
  have hwid2 : ∀ e ∈ out.reverse, e.hash.length = c.N := by
    intro e he
    have he2 : e ∈ out := List.mem_reverse.mp he
    rw [hexte] at he2
    exact hwid e he2
  have hver : verify_proof c L out.reverse v = .ok true := by
    unfold verify_proof
    simp only [tag_hash_ok c hc, mbind_ok]
    have hfold := verify_foldlM c hc out.reverse (tagV c LEAF_TAG L)
      (tagV_length c hc LEAF_TAG L) hwid2
    simp only [tag_hash_ok c hc, mbind_ok] at hfold
    rw [hfold]
    simp only [mbind_ok]
    have hXv : List.foldl (fun acc e =>
        match e.direction with
        | Dir.LEFT => tagV c NODE_TAG (concatV c e.hash acc)
        | Dir.RIGHT => tagV c NODE_TAG (concatV c acc e.hash))
        (tagV c LEAF_TAG L) out.reverse = v := by
      rw [hexte]
      exact hchain
    rw [hXv]
    simp
  exact ⟨tree, out.reverse, v, hrun, hcp, hroot, hver⟩

theorem c1_create_verify_roundtrip_witness :
    GoodCtx cW ∧ ([[0], [1]] : List (List Nat)) ≠ [] ∧
      [1] ∈ ([[0], [1]] : List (List Nat)) ∧
      ∃ tree proof rootv,
        addAll cW [] [[0], [1]] = .ok tree ∧
        create_proof cW tree [1] = .ok (some proof) ∧
        root tree = some rootv ∧
        verify_proof cW [1] proof rootv = .ok true :=
  ⟨cW_good, by simp, by simp,
    c1_create_verify_roundtrip cW cW_good [[0], [1]] (by simp) [1] (by simp)⟩

theorem c10_parent_inverts_children_witness :
    5 % 2 = 1 ∧ ∃ l r, pbt_left_child 5 = some l ∧ pbt_right_child 5 = some r ∧
      pbt_parent l = 5 ∧ pbt_parent r = 5 :=
  ⟨rfl, c10_parent_inverts_children 5 rfl⟩

end Merkle
